import Mathlib

/-!
Shallow embedding of `bfile.go` (package bfile): the growable `Pager`, its
sharded LRU page cache, and the backing file.

Modelling conventions, chosen once and used throughout:

* Bytes are `ℕ` (byte values are opaque to the pager's logic).
* Buffers and page data are `List ℕ`.  A Go slice passed by a caller is
  modelled with `cap = len`; re-slicing beyond the length is a Go panic and is
  modelled as the error `PErr.sliceOOR`.
* Go `int64` quantities are `ℤ` where the source can hold the sentinel `-1`
  (the pager's `size`) and `ℕ` for quantities that are provably non-negative
  in the source (page numbers, intra-page offsets).  None of the claims
  involves `int64` overflow, so the integers are unbounded.
* The backing `os.File` is `BFile`: a length, total contents function,
  a flag telling whether `Stat` succeeds, and a flag making every positional
  write fail (to exercise the error paths of eviction and flush).  Positional
  reads never fail other than with `io.EOF`, which `Pager.read` treats as
  success, so the model's file read is total.
* Go maps iterated with `range` are modelled as lists iterated in list
  order; the pager only ever treats `dirty` as a set, so the order is
  irrelevant to every property proved here.
* The shard's Go `pages` map and its intrusive LRU list are updated in
  lockstep at every site in the source (`delete`+`pop`, `map insert`+`push`),
  so both are modelled by the single list `Shard.items`, kept in LRU order
  with the most recently used page first; `tail.prev` is the last element.
* Everything is single-threaded: locks in the source only serialize
  operations, and each claim is about the sequential behaviour.
-/

/-- Apply a position-indexed function to every element of a list, keeping the
length; the index of the head is `i`.  Used to model Go's `copy` into a slice
of a byte array and positional file reads into a buffer. -/
def copyIdx (g : ℕ → ℕ → ℕ) : ℕ → List ℕ → List ℕ
  | _, [] => []
  | i, d :: rest => g i d :: copyIdx g (i + 1) rest

/-- The backing file (`*os.File` in the source): byte length, contents
(total function; offsets at or past `flen` are never returned by a read),
whether `Stat` succeeds, and whether positional writes fail. -/
structure BFile where
  flen : ℕ
  fdata : ℕ → ℕ
  statOk : Bool
  failWrites : Bool

/-- Error values surfaced by the model.  `eof` is Go's `io.EOF`; `sliceOOR`
models a Go runtime panic from re-slicing past a slice's capacity or with a
negative bound; `nilDeref` models the nil-pointer dereference that `Flush`
performs when a dirty page number is missing from the page map; `stuck` and
`lruCorrupt` mark configurations (page size zero, per-shard quota zero) on
which the Go loop would not terminate or would unlink an LRU sentinel —
both unreachable from constructed pagers. -/
inductive PErr where
  | negOffset
  | sliceOOR
  | writeFail
  | eof
  | stuck
  | lruCorrupt
  | nilDeref
deriving DecidableEq, Repr

/-- `file.WriteAt(bs, off)` of the backing file: fails when the file is set
to fail writes, otherwise replaces bytes `[off, off+len bs)` and extends the
length. -/
def BFile.writeAt (fl : BFile) (bs : List ℕ) (off : ℕ) : Except PErr BFile :=
  if fl.failWrites then .error .writeFail
  else .ok { fl with
    flen := max fl.flen (off + bs.length),
    fdata := fun o => if off ≤ o ∧ o < off + bs.length then bs.getD (o - off) 0 else fl.fdata o }

/-- `file.ReadAt(dst, off)` of the backing file: fills `dst` with the bytes
of the file in `[off, flen)` and leaves the rest of `dst` untouched, exactly
as Go's `ReadAt` returns `n < len(dst)` bytes together with `io.EOF`.  The
only possible error, `io.EOF`, is swallowed by `Pager.read` (bfile.go line
144), so the model returns the buffer alone. -/
def BFile.readInto (fl : BFile) (dst : List ℕ) (off : ℕ) : List ℕ :=
  copyIdx (fun i d => if off + i < fl.flen then fl.fdata (off + i) else d) 0 dst

/-- A cached page: its page number and its `pgsize`-byte buffer.  The
intrusive `prev`/`next` pointers of the source are represented by the page's
position in its shard's `items` list. -/
structure Page where
  num : ℕ
  data : List ℕ
deriving DecidableEq, Repr

/-- A shard: the page map and LRU list (combined into `items`, most recently
used first) and the dirty set (as a duplicate-free list). -/
structure Shard where
  items : List Page
  dirty : List ℕ
deriving DecidableEq, Repr

/-- The pager (`Pager` in the source): page size, per-shard page quota, the
shard array, the logical size (`-1` until lazily materialized), and the
backing file. -/
structure Pager where
  pgsize : ℕ
  pgmax : ℕ
  shards : List Shard
  size : ℤ
  file : BFile

/-- The empty shard (`shard.init` allocates empty map/dirty/sentinels). -/
def emptyShard : Shard := ⟨[], []⟩

/-- Index of the shard owning page `pnum`: `pnum & (len(f.shards)-1)`. -/
def Pager.keyOf (f : Pager) (pnum : ℕ) : ℕ := Nat.land pnum (f.shards.length - 1)

/-- The shard at index `i` (total, defaulting to the empty shard). -/
def Pager.shardAt (f : Pager) (i : ℕ) : Shard := f.shards.getD i emptyShard

/-- `Pager.write` (bfile.go lines 129-140): write page `p` back, truncating
the tail page at the logical size.  In Go a page lying wholly past `size`
would compute a negative slice bound and panic; that is `.error .sliceOOR`
here (unreachable for dirty pages of reachable states). -/
def Pager.write (f : Pager) (p : Page) : Except PErr Pager :=
  let off : ℤ := (p.num * f.pgsize : ℕ)
  let e : ℤ := if off + (f.pgsize : ℤ) > f.size then f.size - off else (f.pgsize : ℤ)
  if e < 0 then .error .sliceOOR
  else
    match f.file.writeAt (p.data.take e.toNat) (p.num * f.pgsize) with
    | .error er => .error er
    | .ok fl => .ok { f with file := fl }

/-- `Pager.read` (bfile.go lines 142-148): fill the page buffer from the
backing file; `io.EOF` is treated as success, and the model's file read has
no other failure mode. -/
def Pager.read (f : Pager) (p : Page) : Page :=
  { p with data := f.file.readInto p.data (p.num * f.pgsize) }

/-- `Pager.incrSize` (bfile.go lines 152-170): lazily materialize the size
from `Stat`, then extend it to `end`.  On a `Stat` error the source does
`return nil` (line 162): the error is discarded, the size stays `-1`, and
the extension step is skipped — modelled exactly, which is why this function
returns no error at all. -/
def Pager.incrSize (f : Pager) (e : ℤ) : Pager :=
  if f.size = -1 then
    if f.file.statOk then
      let f1 := { f with size := (f.file.flen : ℤ) }
      if e > f1.size then { f1 with size := e } else f1
    else f
  else if e > f.size then { f with size := e } else f

/-- Final step of `Pager.pio` (bfile.go lines 270-276): the page (with buffer
`data`, already detached from `items0`) is reinserted at the MRU position and
the caller's bytes are copied in (write) or out (read).  `copy` transfers
`min` of the two lengths; at every call site `b.length = pend - pstart`. -/
def Pager.pioApply (f : Pager) (idx : ℕ) (items0 : List Page) (dirty0 : List ℕ)
    (data : List ℕ) (b : List ℕ) (pnum pstart pend : ℕ) (write : Bool) :
    Except PErr (List ℕ) × Pager :=
  if write then
    let d := copyIdx
      (fun i x => if pstart ≤ i ∧ i < pend ∧ i - pstart < b.length then b.getD (i - pstart) 0 else x)
      0 data
    let dirty1 := if dirty0.contains pnum then dirty0 else pnum :: dirty0
    (.ok b, { f with shards := f.shards.set idx ⟨⟨pnum, d⟩ :: items0, dirty1⟩ })
  else
    let m := min (pend - pstart) b.length
    let bout := ((data.drop pstart).take m) ++ b.drop m
    (.ok bout, { f with shards := f.shards.set idx ⟨⟨pnum, data⟩ :: items0, dirty0⟩ })

/-- Miss path of `Pager.pio`, after the page buffer has been acquired
(recycled or fresh): read the page from the file for reads and partial
writes (bfile.go lines 256-262), then insert and apply. -/
def Pager.pioLoad (f : Pager) (idx : ℕ) (items0 : List Page) (dirty0 : List ℕ)
    (data0 : List ℕ) (b : List ℕ) (pnum pstart pend : ℕ) (write : Bool) :
    Except PErr (List ℕ) × Pager :=
  let data1 := if write = false ∨ pend - pstart < f.pgsize
    then f.file.readInto data0 (pnum * f.pgsize) else data0
  f.pioApply idx items0 dirty0 data1 b pnum pstart pend write

/-- Miss path of `Pager.pio` (bfile.go lines 227-254): at capacity, evict the
LRU page (`tail.prev`), removing it from map and list; write it back first if
dirty — a failed writeback returns with the page removed from `items` but
its number still in `dirty` (the `delete(s.dirty, p.num)` on line 241 is
only reached on success).  A partial write zero-fills the recycled buffer;
otherwise the buffer is reused as is.  Below capacity a fresh zero page is
allocated.  `lruCorrupt` marks the `pgmax = 0` corner where Go would pop an
LRU sentinel; it is unreachable from constructed pagers. -/
def Pager.pioMiss (f : Pager) (idx : ℕ) (s : Shard) (b : List ℕ)
    (pnum pstart pend : ℕ) (write : Bool) : Except PErr (List ℕ) × Pager :=
  if s.items.length = f.pgmax then
    match s.items.getLast? with
    | none => (.error .lruCorrupt, f)
    | some p0 =>
      let items0 := s.items.dropLast
      let data0 := if write = true ∧ pend - pstart < f.pgsize
        then p0.data.map (fun _ => 0) else p0.data
      if s.dirty.contains p0.num then
        match f.write p0 with
        | .error er => (.error er, { f with shards := f.shards.set idx ⟨items0, s.dirty⟩ })
        | .ok f1 =>
          f1.pioLoad idx items0 (s.dirty.erase p0.num) data0 b pnum pstart pend write
      else
        f.pioLoad idx items0 s.dirty data0 b pnum pstart pend write
  else
    f.pioLoad idx s.items s.dirty (List.replicate f.pgsize 0) b pnum pstart pend write

/-- `Pager.pio` (bfile.go lines 220-277), the per-page operation: pick the
shard by mask, look the page up; on a hit bump it to MRU, on a miss acquire
a buffer (evicting if at capacity) and load it; finally copy the caller's
chunk.  Returns the chunk's buffer (filled on reads) — the Go `n` return is
always `len(b)` of the chunk (line 276). -/
def Pager.pio (f : Pager) (b : List ℕ) (pnum pstart pend : ℕ) (write : Bool) :
    Except PErr (List ℕ) × Pager :=
  let idx := f.keyOf pnum
  let s := f.shardAt idx
  match s.items.find? (fun p => p.num == pnum) with
  | some p =>
    f.pioApply idx (s.items.eraseP (fun q => q.num == pnum)) s.dirty p.data b pnum pstart pend write
  | none => f.pioMiss idx s b pnum pstart pend write

/-- The page-walking loop of `Pager.io` (bfile.go lines 198-213): split the
buffer into page-aligned chunks and hand each to `pio`.  Returns the total
byte count, the first error (if any), the buffer contents after the call
(bytes past a failed chunk are untouched), and the final pager.  `pio`
returns `n = len(chunk)` on success (line 276), so the advance is by the
chunk length.  `stuck` marks the `pgsize = 0` corner where the Go loop would
not terminate; it is unreachable from constructed pagers. -/
def Pager.ioLoopF : ℕ → Pager → List ℕ → ℕ → Bool → (ℕ × Option PErr × List ℕ) × Pager
  | 0, f, b, _, _ =>
    if b.length = 0 then ((0, none, []), f) else ((0, some .stuck, b), f)
  | fuel + 1, f, b, off, write =>
    if b.length = 0 then ((0, none, []), f)
    else
      let pnum := off / f.pgsize
      let pstart := Nat.land off (f.pgsize - 1)
      let pend := min f.pgsize (pstart + b.length)
      if pend - pstart = 0 then ((0, some .stuck, b), f)
      else
        let n := pend - pstart
        match f.pio (b.take n) pnum pstart pend write with
        | (.error er, f1) => ((0, some er, b), f1)
        | (.ok bout, f1) =>
          let r := Pager.ioLoopF fuel f1 (b.drop n) (off + n) write
          ((n + r.1.1, r.1.2.1, bout ++ r.1.2.2), r.2)

/-- The loop runs on fuel `b.length`, which always suffices: each iteration
consumes at least one byte of `b`, since `pstart < pgsize` forces
`pend - pstart ≥ 1` whenever `pgsize ≥ 1` and `b` is nonempty (and the
`pgsize = 0` configuration, on which Go's loop would never terminate, stops
with `stuck`). -/
def Pager.ioLoop (f : Pager) (b : List ℕ) (off : ℕ) (write : Bool) :
    (ℕ × Option PErr × List ℕ) × Pager :=
  Pager.ioLoopF b.length f b off write

/-- The result of a `ReadAt`/`WriteAt` call: byte count, error, and the
caller's buffer after the call. -/
structure IOOut where
  n : ℕ
  err : Option PErr
  buf : List ℕ
deriving DecidableEq, Repr

/-- `Pager.io` (bfile.go lines 172-218; named `ioAt` here), the common entry
point of `ReadAt` and `WriteAt`.  Negative offsets are rejected.  When the
request ends past the known size, `incrSize` runs (its `Stat` error, if any,
was discarded inside — line 184's check never fires); for reads the source
then re-slices `b` to `f.size - start` bytes with no upper clamp, which
panics (`sliceOOR`) whenever the freshly materialized size exceeds the
request's end, and otherwise keeps `b` whole because `incrSize` has just
raised `size` to the request's end; the EOF flag is returned only when the
page loop finishes without error (line 214). -/
def Pager.ioAt (f : Pager) (b : List ℕ) (off : ℤ) (write : Bool) : IOOut × Pager :=
  if off < 0 then (⟨0, some .negOffset, b⟩, f)
  else
    let start := off
    let e0 : ℤ := off + (b.length : ℤ)
    if e0 > f.size then
      let f1 := f.incrSize e0
      if write then
        let r := f1.ioLoop b off.toNat true
        (⟨r.1.1, r.1.2.1, r.1.2.2⟩, r.2)
      else
        let e1 := f1.size
        let e2 := if e1 - start < 0 then start else e1
        if (b.length : ℤ) < e2 - start then (⟨0, some .sliceOOR, b⟩, f1)
        else
          let k := (e2 - start).toNat
          let r := f1.ioLoop (b.take k) off.toNat false
          (⟨r.1.1,
            (match r.1.2.1 with
             | none => some .eof
             | some er => some er),
            r.1.2.2 ++ b.drop k⟩, r.2)
    else
      let r := f.ioLoop b off.toNat write
      (⟨r.1.1, r.1.2.1, r.1.2.2⟩, r.2)

/-- `Pager.ReadAt` (bfile.go lines 299-301). -/
def Pager.ReadAt (f : Pager) (b : List ℕ) (off : ℤ) : IOOut × Pager :=
  f.ioAt b off false

/-- `Pager.WriteAt` (bfile.go lines 306-308). -/
def Pager.WriteAt (f : Pager) (b : List ℕ) (off : ℤ) : IOOut × Pager :=
  f.ioAt b off true

/-- The inner loop of `Pager.Flush` for one shard (bfile.go lines 284-289):
walk the dirty page numbers (`work` is the dirty list at entry), look each
page up — a missing page is Go's `f.write(nil)` nil dereference — write it
back, and only on success remove it from the dirty set. -/
def Pager.flushDirty (f : Pager) (idx : ℕ) (work : List ℕ) : Option PErr × Pager :=
  match work with
  | [] => (none, f)
  | pnum :: rest =>
    let s := f.shardAt idx
    match s.items.find? (fun p => p.num == pnum) with
    | none => (some .nilDeref, f)
    | some p =>
      match f.write p with
      | .error er => (some er, f)
      | .ok f1 =>
        let f2 := { f1 with shards := f1.shards.set idx { s with dirty := s.dirty.erase pnum } }
        f2.flushDirty idx rest

/-- A successful page writeback only changes the backing file. -/
theorem Pager.write_ok {f : Pager} {p : Page} {f1 : Pager} (h : f.write p = .ok f1) :
    ∃ fl, f1 = { f with file := fl } := by
  unfold Pager.write at h
  dsimp only at h
  split at h <;>
    · split at h
      · simp at h
      · split at h
        · simp at h
        · exact ⟨_, (Except.ok.inj h).symm⟩

theorem Pager.flushDirty_shards_length (f : Pager) (idx : ℕ) (work : List ℕ) :
    ((f.flushDirty idx work).2).shards.length = f.shards.length := by
  induction work generalizing f with
  | nil => rfl
  | cons pnum rest ih =>
    rw [Pager.flushDirty]
    cases hfind : (f.shardAt idx).items.find? (fun p => p.num == pnum) with
    | none => rfl
    | some p =>
      cases hw : f.write p with
      | error er => simp [hw]
      | ok f1 =>
        simp only [hw]
        rw [ih]
        obtain ⟨fl, rfl⟩ := Pager.write_ok hw
        simp

/-- The shard iteration of `Pager.Flush` (bfile.go lines 283-290), on fuel:
`flushDirty` never changes the number of shards
(`Pager.flushDirty_shards_length`), so fuel `f.shards.length - idx` walks
every shard exactly as the Go `for i := range f.shards` does. -/
def Pager.flushFromF : ℕ → Pager → ℕ → Option PErr × Pager
  | 0, f, _ => (none, f)
  | fuel + 1, f, idx =>
    if idx < f.shards.length then
      let r := f.flushDirty idx (f.shardAt idx).dirty
      match r.1 with
      | some er => (some er, r.2)
      | none => Pager.flushFromF fuel r.2 (idx + 1)
    else (none, f)

/-- `Pager.Flush` (bfile.go lines 280-292): write every dirty page back,
aborting at the first error. -/
def Pager.Flush (f : Pager) : Option PErr × Pager :=
  Pager.flushFromF f.shards.length f 0

def loopPow2F : ℕ → ℕ → ℕ → ℕ
  | 0, x, _ => x
  | fuel + 1, x, n => if x < n then loopPow2F fuel (2 * x) n else x

/-- The power-of-two rounding loop of `NewPagerSize` (`x := 1; for x < n
x *= 2`), on fuel `n`, which always suffices from `x = 1`: the iteration
count is at most `log2 n + 1 ≤ n`. -/
def loopPow2 (x n : ℕ) : ℕ := loopPow2F n x n

/-- `NewPagerSize` (bfile.go lines 72-116).  Note the source gates the
rounding on `pageSize & 4095 != 0`, so a positive multiple of 4096 is kept
unchanged even when it is not a power of two.  `math.Ceil`/`math.Floor` over
`float64` act on exact values in every configuration relevant here and are
modelled exactly. -/
def NewPagerSize (file : BFile) (pageSize bufferSize : ℤ) : Pager :=
  let ps : ℕ :=
    if pageSize ≤ 0 then 4096
    else if Nat.land pageSize.toNat 4095 ≠ 0 then loopPow2 1 pageSize.toNat
    else pageSize.toNat
  let bs : ℕ :=
    if bufferSize ≤ 0 then 0x800000
    else if bufferSize < (ps : ℤ) then ps
    else bufferSize.toNat
  let pgmax0 := bs / ps
  let pgmax1 := if pgmax0 < 4 then 4 else pgmax0
  let ns0 := (pgmax1 + 31) / 32
  let ns1 := if ns0 > 128 then 128 else ns0
  let ns := loopPow2 1 ns1
  { pgsize := ps
    pgmax := pgmax1 / ns
    shards := List.replicate ns emptyShard
    size := -1
    file := file }

/-- `NewPager` (bfile.go lines 63-65). -/
def NewPager (file : BFile) : Pager := NewPagerSize file 0 0

/-- One caller-visible pager operation, for stating reachability. -/
inductive POp where
  | read (b : List ℕ) (off : ℤ)
  | write (b : List ℕ) (off : ℤ)
  | flush

/-- Apply one operation, keeping the resulting pager state. -/
def runOp (f : Pager) (op : POp) : Pager :=
  match op with
  | .read b off => (f.ReadAt b off).2
  | .write b off => (f.WriteAt b off).2
  | .flush => (f.Flush).2

/-- Apply a sequence of operations. -/
def runOps (f : Pager) (ops : List POp) : Pager :=
  ops.foldl runOp f

/-- The byte each position holds after a sequence of `(offset, bytes)`
writes; later writes win. -/
def lastWritten (ws : List (ℕ × List ℕ)) (o : ℕ) : Option ℕ :=
  ws.foldl
    (fun acc w => if w.1 ≤ o ∧ o < w.1 + w.2.length then some (w.2.getD (o - w.1) 0) else acc)
    none

/-- Two writes' byte ranges do not overlap. -/
def DisjointW (w1 w2 : ℕ × List ℕ) : Prop :=
  w1.1 + w1.2.length ≤ w2.1 ∨ w2.1 + w2.2.length ≤ w1.1

instance (w1 w2 : ℕ × List ℕ) : Decidable (DisjointW w1 w2) := by
  unfold DisjointW
  infer_instance

/-- Run a list of writes through `Pager.WriteAt`. -/
def applyWrites (f : Pager) (ws : List (ℕ × List ℕ)) : Pager :=
  ws.foldl (fun s w => (s.WriteAt w.2 (w.1 : ℤ)).2) f

/-- The cached page holding page number `pnum`, if any. -/
def Pager.cachedAt (f : Pager) (pnum : ℕ) : Option Page :=
  (f.shardAt (f.keyOf pnum)).items.find? (fun p => p.num == pnum)

/-- Whether page `pnum` is marked dirty in its shard. -/
def Pager.isDirty (f : Pager) (pnum : ℕ) : Bool :=
  (f.shardAt (f.keyOf pnum)).dirty.contains pnum

theorem copyIdx_length (g : ℕ → ℕ → ℕ) (i : ℕ) (l : List ℕ) :
    (copyIdx g i l).length = l.length := by
  induction l generalizing i with
  | nil => rfl
  | cons d rest ih => simp [copyIdx, ih]

theorem copyIdx_getD (g : ℕ → ℕ → ℕ) (i j : ℕ) (l : List ℕ) (hj : j < l.length) :
    (copyIdx g i l).getD j 0 = g (i + j) (l.getD j 0) := by
  induction l generalizing i j with
  | nil => simp at hj
  | cons d rest ih =>
    cases j with
    | zero => simp [copyIdx]
    | succ j =>
      simp only [copyIdx, List.getD_cons_succ]
      rw [ih (i + 1) j (by simpa using hj)]
      ring_nf

theorem BFile.readInto_length (fl : BFile) (dst : List ℕ) (off : ℕ) :
    (fl.readInto dst off).length = dst.length := copyIdx_length _ _ _

theorem BFile.readInto_getD (fl : BFile) (dst : List ℕ) (off j : ℕ) (hj : j < dst.length) :
    (fl.readInto dst off).getD j 0 =
      if off + j < fl.flen then fl.fdata (off + j) else dst.getD j 0 := by
  unfold BFile.readInto
  rw [copyIdx_getD _ _ _ _ hj]
  simp

theorem BFile.writeAt_ok {fl : BFile} {bs : List ℕ} {off : ℕ} {fl1 : BFile}
    (h : fl.writeAt bs off = .ok fl1) :
    fl1.flen = max fl.flen (off + bs.length) ∧
    (∀ o, off ≤ o → o < off + bs.length → fl1.fdata o = bs.getD (o - off) 0) ∧
    (∀ o, o < off ∨ off + bs.length ≤ o → fl1.fdata o = fl.fdata o) ∧
    fl1.statOk = fl.statOk ∧ fl1.failWrites = fl.failWrites := by
  unfold BFile.writeAt at h
  split at h
  · simp at h
  · cases h
    refine ⟨rfl, ?_, ?_, rfl, rfl⟩
    · intro o h1 h2
      simp only
      rw [if_pos ⟨h1, h2⟩]
    · intro o ho
      simp only
      rw [if_neg (by omega)]

theorem BFile.writeAt_isOk (fl : BFile) (bs : List ℕ) (off : ℕ)
    (h : fl.failWrites = false) : ∃ fl1, fl.writeAt bs off = .ok fl1 := by
  unfold BFile.writeAt
  rw [if_neg (by simp [h])]
  exact ⟨_, rfl⟩

theorem find?_num_some {l : List Page} {pnum : ℕ} {p : Page}
    (h : l.find? (fun q => q.num == pnum) = some p) : p ∈ l ∧ p.num = pnum :=
  ⟨List.mem_of_find?_eq_some h, by simpa using List.find?_some h⟩

theorem find?_num_none {l : List Page} {pnum : ℕ}
    (h : l.find? (fun q => q.num == pnum) = none) : ∀ p ∈ l, p.num ≠ pnum := by
  intro p hp
  have := List.find?_eq_none.mp h p hp
  simpa using this

/-- Removing the (first) entry with key `pnum` does not change lookups at
other keys. -/
theorem find?_eraseP_ne (l : List Page) (pnum q : ℕ) (hne : q ≠ pnum) :
    (l.eraseP (fun p => p.num == pnum)).find? (fun p => p.num == q) =
      l.find? (fun p => p.num == q) := by
  induction l with
  | nil => rfl
  | cons a rest ih =>
    by_cases ha : a.num = pnum
    · rw [List.eraseP_cons_of_pos (by simpa using ha)]
      rw [List.find?_cons_of_neg _ (by simp [ha]; exact Ne.symm hne)]
    · rw [List.eraseP_cons_of_neg (by simpa using ha)]
      by_cases hq : a.num = q
      · rw [List.find?_cons_of_pos _ (by simp [hq]),
          List.find?_cons_of_pos _ (by simp [hq])]
      · rw [List.find?_cons_of_neg _ (by simp [hq]),
          List.find?_cons_of_neg _ (by simp [hq]), ih]

theorem length_eraseP_find {l : List Page} {pnum : ℕ} {p : Page}
    (h : l.find? (fun q => q.num == pnum) = some p) :
    (l.eraseP (fun q => q.num == pnum)).length + 1 = l.length := by
  induction l with
  | nil => simp at h
  | cons a rest ih =>
    by_cases ha : a.num = pnum
    · rw [List.eraseP_cons_of_pos (by simpa using ha)]
      simp
    · rw [List.eraseP_cons_of_neg (by simpa using ha)]
      rw [List.find?_cons_of_neg _ (by simpa using ha)] at h
      simpa using ih h

theorem mem_eraseP_num {l : List Page} {pnum : ℕ} {x : Page}
    (h : x ∈ l.eraseP (fun q => q.num == pnum)) : x ∈ l :=
  (List.mem_of_mem_eraseP h)

/-- `find?` on `dropLast` when the last element has a different key. -/
theorem find?_dropLast_ne {l : List Page} {p0 : Page} {q : ℕ}
    (hl : l.getLast? = some p0) (hne : p0.num ≠ q) :
    l.dropLast.find? (fun p => p.num == q) = l.find? (fun p => p.num == q) := by
  induction l with
  | nil => simp at hl
  | cons a rest ih =>
    cases rest with
    | nil =>
      simp only [List.getLast?_singleton, Option.some.injEq] at hl
      subst hl
      simp only [List.dropLast_single, List.find?_nil]
      rw [List.find?_cons_of_neg _ (by simp [hne])]
      rfl
    | cons b rest2 =>
      rw [List.getLast?_cons_cons] at hl
      have := ih hl
      by_cases hq : a.num = q
      · simp only [List.dropLast_cons₂]
        rw [List.find?_cons_of_pos _ (by simp [hq]),
          List.find?_cons_of_pos _ (by simp [hq])]
      · simp only [List.dropLast_cons₂]
        rw [List.find?_cons_of_neg _ (by simp [hq]),
          List.find?_cons_of_neg _ (by simp [hq])]
        exact this

/-- With duplicate-free keys, dropping the last page removes its key from
lookups. -/
theorem find?_dropLast_self {l : List Page} {p0 : Page}
    (hl : l.getLast? = some p0) (hnd : (l.map Page.num).Nodup) :
    l.dropLast.find? (fun p => p.num == p0.num) = none := by
  induction l with
  | nil => simp at hl
  | cons a rest ih =>
    cases rest with
    | nil => simp
    | cons b rest2 =>
      rw [List.getLast?_cons_cons] at hl
      simp only [List.map_cons, List.nodup_cons] at hnd
      have hmem : p0 ∈ b :: rest2 := List.mem_of_mem_getLast? hl
      have hane : a.num ≠ p0.num := by
        intro he
        exact hnd.1 (he ▸ List.mem_map_of_mem Page.num hmem)
      simp only [List.dropLast_cons₂]
      rw [List.find?_cons_of_neg _ (by simp [hane])]
      exact ih hl (by simpa using hnd.2)

theorem getLast?_mem {l : List Page} {p0 : Page} (hl : l.getLast? = some p0) : p0 ∈ l :=
  List.mem_of_mem_getLast? hl

/-- `shardAt` after updating shard `idx`. -/
theorem shardAt_set_self (f : Pager) (idx : ℕ) (s : Shard) (h : idx < f.shards.length) :
    (Pager.shardAt { f with shards := f.shards.set idx s } idx) = s := by
  unfold Pager.shardAt
  simp [List.getD_eq_getElem?_getD, List.getElem?_set_self, h]

theorem shardAt_set_other (f : Pager) (idx j : ℕ) (s : Shard) (h : j ≠ idx) :
    (Pager.shardAt { f with shards := f.shards.set idx s } j) = f.shardAt j := by
  unfold Pager.shardAt
  simp [List.getD_eq_getElem?_getD, List.getElem?_set_ne (Ne.symm h)]

theorem keyOf_set (f : Pager) (idx : ℕ) (s : Shard) (pnum : ℕ) :
    (Pager.keyOf { f with shards := f.shards.set idx s } pnum) = f.keyOf pnum := by
  unfold Pager.keyOf
  simp

theorem land_le_right (n m : ℕ) : Nat.land n m ≤ m := Nat.and_le_right

theorem land_pow2_mod (n w k : ℕ) (h : w = 2 ^ k) : Nat.land n (w - 1) = n % w := by
  subst h
  exact Nat.and_pow_two_sub_one_eq_mod n k

theorem keyOf_lt (f : Pager) (pnum : ℕ) (h : 1 ≤ f.shards.length) :
    f.keyOf pnum < f.shards.length := by
  unfold Pager.keyOf
  have := land_le_right pnum (f.shards.length - 1)
  omega

theorem shardAt_mem (f : Pager) (i : ℕ) (h : i < f.shards.length) :
    f.shardAt i ∈ f.shards := by
  unfold Pager.shardAt
  rw [List.getD_eq_getElem?_getD, List.getElem?_eq_getElem h]
  exact List.getElem_mem _

/-! ### Concrete fixtures

Small configurations (page size 4, one shard, per-shard quota 4) exercising
the pager end to end; `decide` evaluates them inside the kernel. -/

/-- A healthy 10-byte backing file with recognizable contents. -/
def fileTen : BFile := ⟨10, fun o => o + 100, true, false⟩

/-- A pager over `fileTen` with page size 4 (fresh: `size = -1`). -/
def pagerTen : Pager := NewPagerSize fileTen 4 4

/-- `pagerTen` after `WriteAt([9], 0)`, which materializes `size = 10`. -/
def pagerTenM : Pager := (pagerTen.WriteAt [9] 0).2

/-- A backing file whose `Stat` fails. -/
def fileStatErr : BFile := ⟨50, fun _ => 1, false, false⟩

/-- A fresh pager over `fileStatErr`. -/
def pagerStatErr : Pager := NewPagerSize fileStatErr 4 4

/-- An initially empty backing file whose positional writes fail. -/
def fileFailW : BFile := ⟨0, fun _ => 0, true, true⟩

/-- Pager over `fileFailW` after four full-page writes filling its single
shard (pages 0..3, all dirty; no backing write has happened yet). -/
def pagerFailFull : Pager :=
  (((((NewPagerSize fileFailW 4 4).WriteAt (List.replicate 4 1) 0).2.WriteAt
      (List.replicate 4 2) 4).2.WriteAt
      (List.replicate 4 3) 8).2.WriteAt
      (List.replicate 4 4) 12).2

/-- C3.  On the first `ReadAt` of a fresh pager whose backing file is larger
than `off + len(b)`, `Pager.io` sets `end = f.size` after materializing the
size (bfile.go line 188) with no clamp to the request, so `b = b[:end-start]`
re-slices the caller's 3-byte buffer to 10 bytes — a runtime panic
(`sliceOOR`), contradicting the claim that `ReadAt` never indexes `b` beyond
`len(b)`. -/
theorem c3_readAt_fresh_overslice :
    pagerTen.size = -1 ∧ (0 + 3 : ℤ) ≤ (fileTen.flen : ℤ) ∧
    (pagerTen.ReadAt (List.replicate 3 0) 0).1.err = some PErr.sliceOOR := by
  decide

/-- C2.  With the size materialized at 10, `ReadAt` of 5 bytes at offset 8
returns `(5, EOF)` — not `(size - off, EOF) = (2, EOF)` as the claim states —
because `incrSize` (called from line 184 even for reads) has already raised
`size` to `off + len(b) = 13`, making the subsequent `end = f.size`
truncation a no-op. -/
theorem c2_readAt_pastEnd_full_count :
    pagerTenM.size = 10 ∧
    (pagerTenM.ReadAt (List.replicate 5 7) 8).1.n = 5 ∧
    (pagerTenM.ReadAt (List.replicate 5 7) 8).1.err = some PErr.eof ∧
    ¬ (pagerTenM.ReadAt (List.replicate 5 7) 8).1.n = 2 := by
  decide

/-- C4.  The same read extends the pager's logical size from 10 to 13:
`incrSize` (bfile.go lines 166-168) raises `size` to `end` regardless of the
read/write direction, contradicting the claim that only writes extend the
size. -/
theorem c4_readAt_extends_size :
    pagerTenM.size = 10 ∧
    (pagerTenM.ReadAt (List.replicate 5 7) 8).2.size = 13 := by
  decide

/-- C6.  A `Stat` failure during lazy size materialization is discarded:
`incrSize` does `return nil` on the error (bfile.go line 162), so this
`WriteAt` on a fresh pager whose file cannot be stat'ed reports full success
`(1, nil)`, and a `ReadAt` reports `(0, EOF)` — the backing-file error never
reaches the caller, contradicting the claim that it is surfaced verbatim. -/
theorem c6_stat_error_swallowed :
    fileStatErr.statOk = false ∧
    (pagerStatErr.WriteAt [3] 0).1.err = none ∧
    (pagerStatErr.WriteAt [3] 0).1.n = 1 ∧
    (pagerStatErr.ReadAt [0] 0).1.err = some PErr.eof := by
  decide

/-- C5.  A failed writeback during eviction leaves the dirty-set pointing at
an evicted page: writing a fifth page into the full single shard evicts dirty
page 0, whose backing write fails; `pio` returns the error after
`delete(s.pages, p.num)` but before `delete(s.dirty, p.num)` (bfile.go lines
235-241), so page number 0 remains in `dirty` while no page 0 is in the page
map — `dirty ⊆ keys(pages)` is violated. -/
theorem c5_evictFail_dirty_dangling :
    (pagerFailFull.WriteAt [7] 16).1.err = some PErr.writeFail ∧
    (pagerFailFull.WriteAt [7] 16).2.shards.length = 1 ∧
    0 ∈ ((pagerFailFull.WriteAt [7] 16).2.shardAt 0).dirty ∧
    ((pagerFailFull.WriteAt [7] 16).2.shardAt 0).items.find? (fun p => p.num == 0) = none := by
  decide

/-- C7.  `NewPagerSize` only rounds when `pageSize & 4095 != 0` (bfile.go
line 75), so the positive multiple of 4096 `pageSize = 12288` is kept even
though it is not a power of two; non-positive input does default to 4096 and
other inputs do round up. -/
theorem c7_pagesize_not_pow2 :
    (NewPagerSize fileTen 12288 0).pgsize = 12288 ∧
    (∀ k : ℕ, (2 : ℕ) ^ k ≠ 12288) ∧
    (NewPagerSize fileTen 0 0).pgsize = 4096 ∧
    (NewPagerSize fileTen 5000 0).pgsize = 8192 := by
  refine ⟨by decide, ?_, by decide, by decide⟩
  intro k h
  rcases le_or_lt k 13 with hk | hk
  · have h2 : (2 : ℕ) ^ k ≤ 2 ^ 13 := Nat.pow_le_pow_right (by norm_num) hk
    rw [h] at h2
    norm_num at h2
  · have h2 : (2 : ℕ) ^ 14 ≤ 2 ^ k := Nat.pow_le_pow_right (by norm_num) hk
    rw [h] at h2
    norm_num at h2

/-- C10.  For any pager with a materialized size and any offset strictly
past it, `WriteAt` of an empty buffer returns `(0, nil)` yet the resulting
state is exactly the old one with `size := off`: no page, no shard, and no
backing-file interaction (the lazy `Stat` does not even run, since the size
is already known). -/
theorem c10_writeAt_empty_extends (f : Pager) (off : ℤ)
    (hsz : 0 ≤ f.size) (hoff : f.size < off) :
    f.WriteAt [] off = (⟨0, none, []⟩, { f with size := off }) := by
  have h0 : ¬ off < 0 := by omega
  have hne : ¬ f.size = -1 := by omega
  simp [Pager.WriteAt, Pager.ioAt, Pager.incrSize, Pager.ioLoop, Pager.ioLoopF,
    h0, hne, hoff]

theorem c10_writeAt_empty_extends_witness :
    (0 ≤ pagerTenM.size ∧ pagerTenM.size < 20) ∧
    pagerTenM.WriteAt [] 20 = (⟨0, none, []⟩, { pagerTenM with size := 20 }) :=
  ⟨⟨by decide, by decide⟩, c10_writeAt_empty_extends pagerTenM 20 (by decide) (by decide)⟩

/-- C9.  Writing back a page `p` issues exactly one positional write, of
`p.data` truncated to `min(pgsize, size - p.num*pgsize)` bytes, at offset
`p.num * pgsize`; in particular with page size 4096 and logical size 5000
the tail page (number 1) is written as 904 bytes, and when the backing file
was no longer than the logical size its length afterwards equals exactly
that logical size, 5000. -/
theorem c9_write_truncated (f : Pager) (p : Page)
    (hd : p.data.length = f.pgsize)
    (hs : ((p.num * f.pgsize : ℕ) : ℤ) ≤ f.size)
    (hfw : f.file.failWrites = false) :
    f.write p =
      (f.file.writeAt
        (p.data.take (min f.pgsize ((f.size - ((p.num * f.pgsize : ℕ) : ℤ)).toNat)))
        (p.num * f.pgsize)).map (fun fl => { f with file := fl }) ∧
    (p.data.take (min f.pgsize ((f.size - ((p.num * f.pgsize : ℕ) : ℤ)).toNat))).length =
      min f.pgsize ((f.size - ((p.num * f.pgsize : ℕ) : ℤ)).toNat) ∧
    (f.pgsize = 4096 → f.size = 5000 → p.num = 1 →
      min f.pgsize ((f.size - ((p.num * f.pgsize : ℕ) : ℤ)).toNat) = 904) ∧
    (f.pgsize = 4096 → f.size = 5000 → p.num = 1 → f.file.flen ≤ 5000 →
      ∀ f1 : Pager, f.write p = .ok f1 → f1.file.flen = 5000) := by
  have hkey : f.write p =
      (f.file.writeAt
        (p.data.take (min f.pgsize ((f.size - ((p.num * f.pgsize : ℕ) : ℤ)).toNat)))
        (p.num * f.pgsize)).map (fun fl => { f with file := fl }) := by
    unfold Pager.write
    dsimp only
    by_cases hc : ((p.num * f.pgsize : ℕ) : ℤ) + (f.pgsize : ℤ) > f.size
    · rw [if_pos hc, if_neg (by omega)]
      have htn : min f.pgsize ((f.size - ((p.num * f.pgsize : ℕ) : ℤ)).toNat) =
          (f.size - ((p.num * f.pgsize : ℕ) : ℤ)).toNat := by
        apply min_eq_right
        omega
      rw [htn]
      cases hw : f.file.writeAt
          (p.data.take (f.size - ((p.num * f.pgsize : ℕ) : ℤ)).toNat) (p.num * f.pgsize) <;>
        simp [hw, Except.map]
    · rw [if_neg hc, if_neg (by omega)]
      have htn : min f.pgsize ((f.size - ((p.num * f.pgsize : ℕ) : ℤ)).toNat) = f.pgsize := by
        apply min_eq_left
        omega
      rw [htn]
      have : ((f.pgsize : ℤ)).toNat = f.pgsize := by omega
      rw [this]
      cases hw : f.file.writeAt (p.data.take f.pgsize) (p.num * f.pgsize) <;>
        simp [hw, Except.map]
  refine ⟨hkey, ?_, ?_, ?_⟩
  · rw [List.length_take, hd]
    omega
  · intro h1 h2 h3
    rw [h1, h2, h3]
    decide
  · intro h1 h2 h3 hflen f1 hok
    rw [hkey] at hok
    have h904 : min f.pgsize ((f.size - ((p.num * f.pgsize : ℕ) : ℤ)).toNat) = 904 := by
      rw [h1, h2, h3]
      decide
    rw [h904] at hok
    obtain ⟨fl1, hw⟩ := f.file.writeAt_isOk (p.data.take 904) (p.num * f.pgsize) hfw
    rw [hw] at hok
    have hfl : f1 = { f with file := fl1 } := by
      simpa [Except.map] using hok.symm
    obtain ⟨hflen1, -, -, -, -⟩ := BFile.writeAt_ok hw
    rw [hfl]
    simp only
    rw [hflen1, List.length_take, hd, h1, h3]
    omega

theorem c9_write_truncated_witness :
    ((Page.mk 1 [1, 2, 3, 4]).data.length = pagerTenM.pgsize ∧
      (((Page.mk 1 [1, 2, 3, 4]).num * pagerTenM.pgsize : ℕ) : ℤ) ≤ pagerTenM.size ∧
      pagerTenM.file.failWrites = false) ∧
    (pagerTenM.write (Page.mk 1 [1, 2, 3, 4]) =
      (pagerTenM.file.writeAt
        ((Page.mk 1 [1, 2, 3, 4]).data.take
          (min pagerTenM.pgsize
            ((pagerTenM.size - (((Page.mk 1 [1, 2, 3, 4]).num * pagerTenM.pgsize : ℕ) : ℤ)).toNat)))
        ((Page.mk 1 [1, 2, 3, 4]).num * pagerTenM.pgsize)).map
          (fun fl => { pagerTenM with file := fl }) ∧
    ((Page.mk 1 [1, 2, 3, 4]).data.take
        (min pagerTenM.pgsize
          ((pagerTenM.size - (((Page.mk 1 [1, 2, 3, 4]).num * pagerTenM.pgsize : ℕ) : ℤ)).toNat))).length =
      min pagerTenM.pgsize
        ((pagerTenM.size - (((Page.mk 1 [1, 2, 3, 4]).num * pagerTenM.pgsize : ℕ) : ℤ)).toNat) ∧
    (pagerTenM.pgsize = 4096 → pagerTenM.size = 5000 → (Page.mk 1 [1, 2, 3, 4]).num = 1 →
      min pagerTenM.pgsize
        ((pagerTenM.size - (((Page.mk 1 [1, 2, 3, 4]).num * pagerTenM.pgsize : ℕ) : ℤ)).toNat) = 904) ∧
    (pagerTenM.pgsize = 4096 → pagerTenM.size = 5000 → (Page.mk 1 [1, 2, 3, 4]).num = 1 →
      pagerTenM.file.flen ≤ 5000 →
      ∀ f1 : Pager, pagerTenM.write (Page.mk 1 [1, 2, 3, 4]) = .ok f1 → f1.file.flen = 5000)) :=
  ⟨⟨by decide, by decide, by decide⟩,
    c9_write_truncated pagerTenM (Page.mk 1 [1, 2, 3, 4]) (by decide) (by decide) (by decide)⟩

/-! ### C8: per-shard capacity invariant -/

/-- Every shard holds at most `pgmax` pages. -/
def CapOK (f : Pager) : Prop := ∀ sh ∈ f.shards, sh.items.length ≤ f.pgmax

theorem capOK_set {f : Pager} (hf : CapOK f) (idx : ℕ) {s : Shard}
    (hs : s.items.length ≤ f.pgmax) :
    CapOK { f with shards := f.shards.set idx s } := by
  intro sh hmem
  rcases List.mem_or_eq_of_mem_set hmem with h | rfl
  · exact hf sh h
  · exact hs

theorem shardAt_default (f : Pager) (i : ℕ) (h : f.shards.length ≤ i) :
    f.shardAt i = emptyShard := by
  unfold Pager.shardAt
  rw [List.getD_eq_getElem?_getD, List.getElem?_eq_none h]
  rfl

theorem capOK_shardAt {f : Pager} (hf : CapOK f) (i : ℕ) :
    (f.shardAt i).items.length ≤ f.pgmax := by
  rcases lt_or_le i f.shards.length with h | h
  · exact hf _ (shardAt_mem f i h)
  · rw [shardAt_default f i h]
    simp [emptyShard]

theorem Pager.incrSize_only_size (f : Pager) (e : ℤ) :
    ∃ sz, f.incrSize e = { f with size := sz } := by
  unfold Pager.incrSize
  dsimp only
  split
  · split
    · split
      · exact ⟨_, rfl⟩
      · exact ⟨_, rfl⟩
    · exact ⟨f.size, rfl⟩
  · split
    · exact ⟨_, rfl⟩
    · exact ⟨f.size, rfl⟩

theorem pioApply_cap {f : Pager} (hf : CapOK f) (idx : ℕ) {items0 : List Page}
    (dirty0 : List ℕ) (data b : List ℕ) (pnum pstart pend : ℕ) (write : Bool)
    (hlen : items0.length + 1 ≤ f.pgmax) :
    CapOK (f.pioApply idx items0 dirty0 data b pnum pstart pend write).2 := by
  unfold Pager.pioApply
  split
  · exact capOK_set hf idx (by simpa using hlen)
  · exact capOK_set hf idx (by simpa using hlen)

theorem pioLoad_cap {f : Pager} (hf : CapOK f) (idx : ℕ) {items0 : List Page}
    (dirty0 : List ℕ) (data0 b : List ℕ) (pnum pstart pend : ℕ) (write : Bool)
    (hlen : items0.length + 1 ≤ f.pgmax) :
    CapOK (f.pioLoad idx items0 dirty0 data0 b pnum pstart pend write).2 := by
  unfold Pager.pioLoad
  exact pioApply_cap hf idx _ _ _ _ _ _ _ hlen

theorem pioMiss_cap {f : Pager} (hf : CapOK f) (idx : ℕ) {s : Shard}
    (b : List ℕ) (pnum pstart pend : ℕ) (write : Bool)
    (hs : s.items.length ≤ f.pgmax) :
    CapOK (f.pioMiss idx s b pnum pstart pend write).2 := by
  unfold Pager.pioMiss
  split
  · rename_i hcap
    cases hlast : s.items.getLast? with
    | none => simp only [hlast]; exact hf
    | some p0 =>
      simp only [hlast]
      have hne : s.items ≠ [] := by
        intro h
        rw [h] at hlast
        simp at hlast
      have hpos : 1 ≤ s.items.length := List.length_pos.mpr hne
      have hdrop : s.items.dropLast.length + 1 = s.items.length := by
        rw [List.length_dropLast]
        omega
      split
      · cases hw : f.write p0 with
        | error er =>
          simp only [hw]
          apply capOK_set hf idx
          simp only
          omega
        | ok f1 =>
          simp only [hw]
          obtain ⟨fl1, rfl⟩ := Pager.write_ok hw
          have hf1 : CapOK { f with file := fl1 } := hf
          apply pioLoad_cap hf1 idx
          simp only
          omega
      · apply pioLoad_cap hf idx
        omega
  · rename_i hcap
    apply pioLoad_cap hf idx
    omega

theorem pio_cap {f : Pager} (hf : CapOK f) (b : List ℕ) (pnum pstart pend : ℕ)
    (write : Bool) : CapOK (f.pio b pnum pstart pend write).2 := by
  unfold Pager.pio
  cases hfind : (f.shardAt (f.keyOf pnum)).items.find? (fun p => p.num == pnum) with
  | some p =>
    simp only [hfind]
    have hcap := capOK_shardAt hf (f.keyOf pnum)
    have hep := length_eraseP_find hfind
    apply pioApply_cap hf (f.keyOf pnum)
    omega
  | none =>
    simp only [hfind]
    exact pioMiss_cap hf (f.keyOf pnum) b pnum pstart pend write (capOK_shardAt hf _)

theorem ioLoopF_cap {f : Pager} (hf : CapOK f) (fuel : ℕ) (b : List ℕ) (off : ℕ)
    (write : Bool) : CapOK (Pager.ioLoopF fuel f b off write).2 := by
  induction fuel generalizing f b off with
  | zero =>
    unfold Pager.ioLoopF
    split <;> exact hf
  | succ fuel ih =>
    unfold Pager.ioLoopF
    dsimp only
    split
    · exact hf
    · split
      · exact hf
      · rcases hp : f.pio (b.take (min f.pgsize (Nat.land off (f.pgsize - 1) + b.length) -
            Nat.land off (f.pgsize - 1))) (off / f.pgsize) (Nat.land off (f.pgsize - 1))
            (min f.pgsize (Nat.land off (f.pgsize - 1) + b.length)) write with ⟨res, f1⟩
        have hf1 : CapOK f1 := by
          have := pio_cap hf (b.take (min f.pgsize (Nat.land off (f.pgsize - 1) + b.length) -
            Nat.land off (f.pgsize - 1))) (off / f.pgsize) (Nat.land off (f.pgsize - 1))
            (min f.pgsize (Nat.land off (f.pgsize - 1) + b.length)) write
          rw [hp] at this
          exact this
        cases res with
        | error er => simp only [hp]; exact hf1
        | ok bout => simp only [hp]; exact ih hf1 _ _

theorem incrSize_cap {f : Pager} (hf : CapOK f) (e : ℤ) : CapOK (f.incrSize e) := by
  obtain ⟨sz, hsz⟩ := f.incrSize_only_size e
  rw [hsz]
  exact hf

theorem ioLoop_cap {f : Pager} (hf : CapOK f) (b : List ℕ) (off : ℕ) (write : Bool) :
    CapOK (f.ioLoop b off write).2 :=
  ioLoopF_cap hf b.length b off write

theorem ioAt_cap {f : Pager} (hf : CapOK f) (b : List ℕ) (off : ℤ) (write : Bool) :
    CapOK (f.ioAt b off write).2 := by
  unfold Pager.ioAt
  dsimp only
  split
  · exact hf
  · have h1 : CapOK (f.incrSize (off + (b.length : ℤ))) := incrSize_cap hf _
    split
    · split
      · exact ioLoop_cap h1 _ _ _
      · split <;> split <;> first | exact h1 | exact ioLoop_cap h1 _ _ _
    · exact ioLoop_cap hf _ _ _

theorem flushDirty_cap {f : Pager} (hf : CapOK f) (idx : ℕ) (work : List ℕ) :
    CapOK (f.flushDirty idx work).2 := by
  induction work generalizing f with
  | nil => exact hf
  | cons pnum rest ih =>
    rw [Pager.flushDirty]
    cases hfind : (f.shardAt idx).items.find? (fun p => p.num == pnum) with
    | none => simp only [hfind]; exact hf
    | some p =>
      simp only [hfind]
      cases hw : f.write p with
      | error er => simp only [hw]; exact hf
      | ok f1 =>
        simp only [hw]
        obtain ⟨fl1, rfl⟩ := Pager.write_ok hw
        apply ih
        apply @capOK_set { f with file := fl1 } hf idx
        exact capOK_shardAt hf idx
  
theorem flushFromF_cap {f : Pager} (hf : CapOK f) (fuel idx : ℕ) :
    CapOK (Pager.flushFromF fuel f idx).2 := by
  induction fuel generalizing f idx with
  | zero => exact hf
  | succ fuel ih =>
    unfold Pager.flushFromF
    dsimp only
    split
    · have h1 := flushDirty_cap hf idx ((f.shardAt idx).dirty)
      split
      · exact h1
      · exact ih h1 _
    · exact hf

theorem runOp_cap {f : Pager} (hf : CapOK f) (op : POp) : CapOK (runOp f op) := by
  cases op with
  | read b off => exact ioAt_cap hf b off false
  | write b off => exact ioAt_cap hf b off true
  | flush => exact flushFromF_cap hf _ 0

theorem runOps_cap {f : Pager} (hf : CapOK f) (ops : List POp) : CapOK (runOps f ops) := by
  induction ops generalizing f with
  | nil => exact hf
  | cons op rest ih => exact ih (runOp_cap hf op)

theorem newPagerSize_cap (fl : BFile) (ps bs : ℤ) : CapOK (NewPagerSize fl ps bs) := by
  intro sh hmem
  have := List.eq_of_mem_replicate hmem
  subst this
  simp [emptyShard]

/-- C8.  In every state reachable from a constructed pager by any sequence
of `ReadAt`/`WriteAt`/`Flush` calls (with arbitrary buffers and offsets,
error paths included), every shard's page map holds at most `pgmax` pages:
a miss into a full shard always evicts the LRU page before inserting
(bfile.go lines 230-254), so the bound is preserved by every operation. -/
theorem c8_shard_capacity (fl : BFile) (ps bs : ℤ) (ops : List POp) :
    ∀ sh ∈ (runOps (NewPagerSize fl ps bs) ops).shards,
      sh.items.length ≤ (runOps (NewPagerSize fl ps bs) ops).pgmax :=
  runOps_cap (newPagerSize_cap fl ps bs) ops

theorem c8_shard_capacity_witness :
    ((runOps (NewPagerSize fileTen 4 4)
        [POp.write [1, 2, 3, 4, 5] 0, POp.read [0, 0] 2, POp.flush]).shardAt 0 ∈
      (runOps (NewPagerSize fileTen 4 4)
        [POp.write [1, 2, 3, 4, 5] 0, POp.read [0, 0] 2, POp.flush]).shards) ∧
    ((runOps (NewPagerSize fileTen 4 4)
        [POp.write [1, 2, 3, 4, 5] 0, POp.read [0, 0] 2, POp.flush]).shardAt 0).items.length ≤
      (runOps (NewPagerSize fileTen 4 4)
        [POp.write [1, 2, 3, 4, 5] 0, POp.read [0, 0] 2, POp.flush]).pgmax :=
  ⟨by decide,
    c8_shard_capacity fileTen 4 4 [POp.write [1, 2, 3, 4, 5] 0, POp.read [0, 0] 2, POp.flush]
      _ (by decide)⟩

/-! ### C1: write/flush/read round trip

The development follows the states of the pager through a sequence of
writes, a flush, and a read, maintaining one structural invariant `SInv`
and one data invariant `MInv` ("every byte covered by the write log is
correctly held by the cache-or-file view"). -/

/-- Structural invariant of pager states reached from a constructed pager
over a healthy backing file: power-of-two page size, nonempty shard array,
positive per-shard quota; every cached page has a full-size buffer, lives in
the shard its number hashes to, page numbers are unique per shard, the dirty
set is duplicate-free, contained in the page map, and every dirty page
starts below the logical size. -/
structure SInv (f : Pager) : Prop where
  pow2 : ∃ k, f.pgsize = 2 ^ k
  nsPos : 1 ≤ f.shards.length
  mxPos : 1 ≤ f.pgmax
  dataLen : ∀ i, ∀ p ∈ (f.shardAt i).items, p.data.length = f.pgsize
  placed : ∀ i, ∀ p ∈ (f.shardAt i).items, f.keyOf p.num = i
  ndKeys : ∀ i, ((f.shardAt i).items.map Page.num).Nodup
  ndDirty : ∀ i, (f.shardAt i).dirty.Nodup
  dirtySub : ∀ i, ∀ d ∈ (f.shardAt i).dirty, ∃ p ∈ (f.shardAt i).items, p.num = d
  dirtyLt : ∀ i, ∀ d ∈ (f.shardAt i).dirty, ((d * f.pgsize : ℕ) : ℤ) < f.size
  fwOK : f.file.failWrites = false
  stOK : f.file.statOk = true

theorem SInv.pgPos {f : Pager} (h : SInv f) : 1 ≤ f.pgsize := by
  obtain ⟨k, hk⟩ := h.pow2
  rw [hk]
  exact Nat.one_le_two_pow

/-- The byte at offset `o` holds value `v` in the pager's view: the offset
is below the logical size; if its page is cached, the cached buffer holds
`v` (and, when the page is clean, so does the backing file); if not cached,
the backing file holds `v` within its length. -/
def MInvAt (f : Pager) (o v : ℕ) : Prop :=
  ((o : ℤ) < f.size) ∧
  (∀ p, f.cachedAt (o / f.pgsize) = some p →
    p.data.getD (o % f.pgsize) 0 = v ∧
    (f.isDirty (o / f.pgsize) = false → o < f.file.flen ∧ f.file.fdata o = v)) ∧
  (f.cachedAt (o / f.pgsize) = none → o < f.file.flen ∧ f.file.fdata o = v)

/-- Every byte of the write log is correctly held. -/
def MInv (f : Pager) (ws : List (ℕ × List ℕ)) : Prop :=
  ∀ o v, lastWritten ws o = some v → MInvAt f o v

theorem MInv_congr {f : Pager} {ws1 ws2 : List (ℕ × List ℕ)}
    (h : ∀ o, lastWritten ws1 o = lastWritten ws2 o) (hm : MInv f ws1) : MInv f ws2 := by
  intro o v hv
  exact hm o v ((h o).symm ▸ hv)

theorem lastWritten_append_one (ws : List (ℕ × List ℕ)) (off : ℕ) (c : List ℕ) (o : ℕ) :
    lastWritten (ws ++ [(off, c)]) o =
      if off ≤ o ∧ o < off + c.length then some (c.getD (o - off) 0) else lastWritten ws o := by
  unfold lastWritten
  rw [List.foldl_append]
  rfl

/-- Splitting one logged write into two adjacent chunks does not change the
per-byte view of the log. -/
theorem lastWritten_split (ws : List (ℕ × List ℕ)) (off : ℕ) (c1 c2 : List ℕ) (o : ℕ) :
    lastWritten ((ws ++ [(off, c1)]) ++ [(off + c1.length, c2)]) o =
      lastWritten (ws ++ [(off, c1 ++ c2)]) o := by
  rw [lastWritten_append_one, lastWritten_append_one, lastWritten_append_one]
  rcases lt_or_le o (off + c1.length) with h1 | h1
  · rw [if_neg (by omega)]
    rcases le_or_lt off o with h2 | h2
    · rw [if_pos ⟨h2, h1⟩, if_pos ⟨h2, by simp; omega⟩]
      have hlt : o - off < c1.length := by omega
      simp [List.getD_eq_getElem?_getD, List.getElem?_append, hlt]
    · rw [if_neg (by omega), if_neg (by omega)]
  · rcases lt_or_le o (off + c1.length + c2.length) with h2 | h2
    · rw [if_pos ⟨by omega, by omega⟩, if_pos ⟨by omega, by simp; omega⟩]
      have hge : ¬ (o - off < c1.length) := by omega
      have hidx : o - off - c1.length = o - (off + c1.length) := by omega
      simp [List.getD_eq_getElem?_getD, List.getElem?_append, hge, hidx]
    · rw [if_neg (by omega), if_neg (by omega), if_neg (by simp; omega)]

theorem pageDecomp (w pnum r : ℕ) (hw : 0 < w) (hr : r < w) :
    (pnum * w + r) / w = pnum ∧ (pnum * w + r) % w = r := by
  constructor
  · rw [Nat.mul_comm, Nat.mul_add_div hw, Nat.div_eq_of_lt hr, Nat.add_zero]
  · rw [Nat.mul_comm, Nat.mul_add_mod, Nat.mod_eq_of_lt hr]

theorem pageRecomp (w o : ℕ) : (o / w) * w + o % w = o := by
  rw [Nat.mul_comm]
  exact Nat.div_add_mod o w

theorem find?_of_mem_ndKeys {l : List Page} {p : Page}
    (hn : (l.map Page.num).Nodup) (hm : p ∈ l) :
    l.find? (fun q => q.num == p.num) = some p := by
  induction l with
  | nil => simp at hm
  | cons a rest ih =>
    simp only [List.map_cons, List.nodup_cons] at hn
    rcases List.mem_cons.mp hm with rfl | hm2
    · rw [List.find?_cons_of_pos _ (by simp)]
    · have hne : a.num ≠ p.num := by
        intro he
        exact hn.1 (he ▸ List.mem_map_of_mem Page.num hm2)
      rw [List.find?_cons_of_neg _ (by simp [hne])]
      exact ih hn.2 hm2

theorem eraseP_num_ne {l : List Page} {pnum : ℕ}
    (hn : (l.map Page.num).Nodup) :
    ∀ q ∈ l.eraseP (fun p => p.num == pnum), q.num ≠ pnum := by
  induction l with
  | nil => simp
  | cons a rest ih =>
    simp only [List.map_cons, List.nodup_cons] at hn
    intro q hq
    by_cases ha : a.num = pnum
    · rw [List.eraseP_cons_of_pos (by simp [ha])] at hq
      intro he
      exact hn.1 (by rw [ha, ← he]; exact List.mem_map_of_mem Page.num hq)
    · rw [List.eraseP_cons_of_neg (by simp [ha])] at hq
      rcases List.mem_cons.mp hq with rfl | hq2
      · exact ha
      · exact ih hn.2 q hq2

theorem keys_nodup_eraseP {l : List Page} {pnum : ℕ}
    (hn : (l.map Page.num).Nodup) :
    ((l.eraseP (fun p => p.num == pnum)).map Page.num).Nodup :=
  hn.sublist ((List.eraseP_sublist l).map Page.num)

theorem keys_nodup_dropLast {l : List Page}
    (hn : (l.map Page.num).Nodup) : (l.dropLast.map Page.num).Nodup :=
  hn.sublist ((List.dropLast_sublist l).map Page.num)

theorem items_decomp {l : List Page} {p0 : Page} (h : l.getLast? = some p0) :
    l = l.dropLast ++ [p0] := by
  have hne : l ≠ [] := by
    intro he
    rw [he] at h
    simp at h
  have h2 := List.dropLast_append_getLast hne
  rw [List.getLast?_eq_getLast l hne, Option.some.injEq] at h
  conv_lhs => rw [← h2]
  rw [h]

theorem mem_dropLast_of_ne {l : List Page} {p0 q : Page} (h : l.getLast? = some p0)
    (hq : q ∈ l) (hne : q ≠ p0) : q ∈ l.dropLast := by
  have hd := items_decomp h
  rw [hd] at hq
  rcases List.mem_append.mp hq with h1 | h1
  · exact h1
  · simp only [List.mem_singleton] at h1
    exact absurd h1 hne

theorem shardAt_congr {fA fB : Pager} (h : fB.shards = fA.shards) (i : ℕ) :
    fB.shardAt i = fA.shardAt i := by
  unfold Pager.shardAt
  rw [h]

theorem keyOf_congr {fA fB : Pager} (h : fB.shards.length = fA.shards.length) (q : ℕ) :
    fB.keyOf q = fA.keyOf q := by
  unfold Pager.keyOf
  rw [h]

theorem cachedAt_set_self {f1 : Pager} {idx : ℕ} (h : idx < f1.shards.length) (s : Shard)
    {pnum : ℕ} (hkey : f1.keyOf pnum = idx) :
    Pager.cachedAt { f1 with shards := f1.shards.set idx s } pnum =
      s.items.find? (fun p => p.num == pnum) := by
  unfold Pager.cachedAt
  rw [keyOf_set, hkey, shardAt_set_self _ _ _ h]

theorem cachedAt_set_other {f1 : Pager} {idx : ℕ} (s : Shard) {q : ℕ}
    (hkey : f1.keyOf q ≠ idx) :
    Pager.cachedAt { f1 with shards := f1.shards.set idx s } q = f1.cachedAt q := by
  unfold Pager.cachedAt
  rw [keyOf_set]
  rw [shardAt_set_other _ _ _ _ hkey]

theorem isDirty_set_self {f1 : Pager} {idx : ℕ} (h : idx < f1.shards.length) (s : Shard)
    {pnum : ℕ} (hkey : f1.keyOf pnum = idx) :
    Pager.isDirty { f1 with shards := f1.shards.set idx s } pnum = s.dirty.contains pnum := by
  unfold Pager.isDirty
  rw [keyOf_set, hkey, shardAt_set_self _ _ _ h]

theorem isDirty_set_other {f1 : Pager} {idx : ℕ} (s : Shard) {q : ℕ}
    (hkey : f1.keyOf q ≠ idx) :
    Pager.isDirty { f1 with shards := f1.shards.set idx s } q = f1.isDirty q := by
  unfold Pager.isDirty
  rw [keyOf_set]
  rw [shardAt_set_other _ _ _ _ hkey]

theorem MInvAt_transfer {fA fB : Pager} (o v : ℕ)
    (hpg : fB.pgsize = fA.pgsize) (hsz : fB.size = fA.size) (hfl : fB.file = fA.file)
    (hc : fB.cachedAt (o / fA.pgsize) = fA.cachedAt (o / fA.pgsize))
    (hd : fB.isDirty (o / fA.pgsize) = fA.isDirty (o / fA.pgsize))
    (h : MInvAt fA o v) : MInvAt fB o v := by
  obtain ⟨h1, h2, h3⟩ := h
  refine ⟨by rw [hsz]; exact h1, ?_, ?_⟩
  · intro p hp
    rw [hpg, hc] at hp
    obtain ⟨hv, hcl⟩ := h2 p hp
    refine ⟨by rw [hpg]; exact hv, ?_⟩
    intro hdf
    rw [hpg, hd] at hdf
    rw [hfl]
    exact hcl hdf
  · intro hp
    rw [hpg, hc] at hp
    rw [hfl]
    exact h3 hp

/-- The intermediate state of a `pio` write or read on page `pnum`: the page
has been detached from its shard (`items0`, `dirty0` are the shard's
remaining contents), its buffer `data1` has been acquired and filled
(recycled, zero-filled, and/or read from the file), and any eviction
writeback has already happened (`f1` is `f` with at most the backing file
changed).  `mData`/`mMid`/`mSz` say that the log's bytes survived the
acquisition. -/
structure Mid (f : Pager) (ws : List (ℕ × List ℕ)) (pnum pstart pend : ℕ) (f1 : Pager)
    (items0 : List Page) (dirty0 : List ℕ) (data1 : List ℕ) : Prop where
  shEq : f1.shards = f.shards
  pgEq : f1.pgsize = f.pgsize
  mxEq : f1.pgmax = f.pgmax
  szEq : f1.size = f.size
  stOK : f1.file.statOk = true
  fwOK : f1.file.failWrites = false
  dLen : data1.length = f.pgsize
  iData : ∀ p ∈ items0, p.data.length = f.pgsize
  iPlaced : ∀ p ∈ items0, f.keyOf p.num = f.keyOf pnum
  iKeys : (items0.map Page.num).Nodup
  iNoP : ∀ p ∈ items0, p.num ≠ pnum
  dNodup : dirty0.Nodup
  dSub : ∀ d ∈ dirty0, d = pnum ∨ ∃ p ∈ items0, p.num = d
  dLt : ∀ d ∈ dirty0, ((d * f.pgsize : ℕ) : ℤ) < f.size
  mSz : ∀ o v, lastWritten ws o = some v → ((o : ℤ) < f.size)
  mData : ∀ o v, lastWritten ws o = some v → o / f.pgsize = pnum →
    o % f.pgsize < pstart ∨ pend ≤ o % f.pgsize →
    data1.getD (o % f.pgsize) 0 = v ∧
    (dirty0.contains pnum = false → o < f1.file.flen ∧ f1.file.fdata o = v)
  mMid : ∀ o v, lastWritten ws o = some v → o / f.pgsize ≠ pnum →
    MInvAt { f1 with shards := f1.shards.set (f.keyOf pnum) ⟨items0, dirty0⟩ } o v

/-- The extra piece a read needs on top of `Mid`: the acquired buffer also
holds the log's bytes inside the chunk `[pstart, pend)` (reads always fill
the buffer from the cache hit or from the file, so this is available on
every read path). -/
def MidIn (f : Pager) (ws : List (ℕ × List ℕ)) (pnum pstart pend : ℕ) (f1 : Pager)
    (dirty0 : List ℕ) (data1 : List ℕ) : Prop :=
  ∀ o v, lastWritten ws o = some v → o / f.pgsize = pnum →
    pstart ≤ o % f.pgsize → o % f.pgsize < pend →
    data1.getD (o % f.pgsize) 0 = v ∧
    (dirty0.contains pnum = false → o < f1.file.flen ∧ f1.file.fdata o = v)

theorem pioApply_write_inv
    {f f1 : Pager} {ws : List (ℕ × List ℕ)} {pnum pstart pend : ℕ} {c : List ℕ}
    {items0 : List Page} {dirty0 : List ℕ} {data1 : List ℕ}
    (hS : SInv f) (hMid : Mid f ws pnum pstart pend f1 items0 dirty0 data1)
    (hps : pstart < pend) (hpe : pend ≤ f.pgsize) (hlen : c.length = pend - pstart)
    (hsz : ((pnum * f.pgsize + pend : ℕ) : ℤ) ≤ f.size) :
    (f1.pioApply (f.keyOf pnum) items0 dirty0 data1 c pnum pstart pend true).1 = .ok c ∧
    SInv (f1.pioApply (f.keyOf pnum) items0 dirty0 data1 c pnum pstart pend true).2 ∧
    MInv (f1.pioApply (f.keyOf pnum) items0 dirty0 data1 c pnum pstart pend true).2
      (ws ++ [(pnum * f.pgsize + pstart, c)]) ∧
    (f1.pioApply (f.keyOf pnum) items0 dirty0 data1 c pnum pstart pend true).2.pgsize = f.pgsize ∧
    (f1.pioApply (f.keyOf pnum) items0 dirty0 data1 c pnum pstart pend true).2.pgmax = f.pgmax ∧
    (f1.pioApply (f.keyOf pnum) items0 dirty0 data1 c pnum pstart pend true).2.size = f.size ∧
    (f1.pioApply (f.keyOf pnum) items0 dirty0 data1 c pnum pstart pend
      true).2.shards.length = f.shards.length ∧
    (f1.pioApply (f.keyOf pnum) items0 dirty0 data1 c pnum pstart pend
      true).2.file.statOk = true ∧
    (f1.pioApply (f.keyOf pnum) items0 dirty0 data1 c pnum pstart pend
      true).2.file.failWrites = false := by
  have hw : 0 < f.pgsize := hS.pgPos
  have hlen1 : f1.shards.length = f.shards.length := by rw [hMid.shEq]
  have hidx : f.keyOf pnum < f1.shards.length := by
    rw [hlen1]
    exact keyOf_lt f pnum hS.nsPos
  have hkey1 : f1.keyOf pnum = f.keyOf pnum := keyOf_congr hlen1 pnum
  set dW := copyIdx
    (fun i x => if pstart ≤ i ∧ i < pend ∧ i - pstart < c.length then c.getD (i - pstart) 0 else x)
    0 data1 with hdW
  set dirtyW := if dirty0.contains pnum then dirty0 else pnum :: dirty0 with hdiW
  have hres : f1.pioApply (f.keyOf pnum) items0 dirty0 data1 c pnum pstart pend true =
      (.ok c, { f1 with
        shards := f1.shards.set (f.keyOf pnum) ⟨⟨pnum, dW⟩ :: items0, dirtyW⟩ }) := rfl
  rw [hres]
  set g : Pager :=
    { f1 with shards := f1.shards.set (f.keyOf pnum) ⟨⟨pnum, dW⟩ :: items0, dirtyW⟩ } with hg
  have hgpg : g.pgsize = f.pgsize := hMid.pgEq
  have hgmx : g.pgmax = f.pgmax := hMid.mxEq
  have hgsz : g.size = f.size := hMid.szEq
  have hglen : g.shards.length = f.shards.length := by
    rw [hg]
    simpa using hlen1
  have hgkey : ∀ q, g.keyOf q = f.keyOf q := keyOf_congr hglen
  have hShidx : g.shardAt (f.keyOf pnum) = ⟨⟨pnum, dW⟩ :: items0, dirtyW⟩ :=
    shardAt_set_self f1 _ _ hidx
  have hShav : ∀ i, i ≠ f.keyOf pnum → g.shardAt i = f.shardAt i := by
    intro i hi
    rw [hg, shardAt_set_other _ _ _ _ hi]
    exact shardAt_congr hMid.shEq i
  have hL1 : g.cachedAt pnum = some ⟨pnum, dW⟩ := by
    rw [hg, cachedAt_set_self hidx _ hkey1]
    rw [List.find?_cons_of_pos _ (by simp)]
  have hL2 : ∀ q, q ≠ pnum → g.cachedAt q =
      Pager.cachedAt { f1 with
        shards := f1.shards.set (f.keyOf pnum) ⟨items0, dirty0⟩ } q := by
    intro q hq
    by_cases hkq : f1.keyOf q = f.keyOf pnum
    · rw [hg, cachedAt_set_self hidx _ hkq, cachedAt_set_self hidx _ hkq]
      rw [List.find?_cons_of_neg _ (by simp [Ne.symm hq])]
    · rw [hg, cachedAt_set_other _ hkq, cachedAt_set_other _ hkq]
  have hL3 : g.isDirty pnum = true := by
    rw [hg, isDirty_set_self hidx _ hkey1, hdiW]
    split
    · rename_i hc0
      exact hc0
    · simp
  have hL4 : ∀ q, q ≠ pnum → g.isDirty q =
      Pager.isDirty { f1 with
        shards := f1.shards.set (f.keyOf pnum) ⟨items0, dirty0⟩ } q := by
    intro q hq
    by_cases hkq : f1.keyOf q = f.keyOf pnum
    · rw [hg, isDirty_set_self hidx _ hkq, isDirty_set_self hidx _ hkq, hdiW]
      split
      · rfl
      · simp [hq]
    · rw [hg, isDirty_set_other _ hkq, isDirty_set_other _ hkq]
  refine ⟨rfl, ?_, ?_, hgpg, hgmx, hgsz, hglen, hMid.stOK, hMid.fwOK⟩
  · -- SInv g
    refine ⟨?_, ?_, ?_, ?_, ?_, ?_, ?_, ?_, ?_, hMid.fwOK, hMid.stOK⟩
    · rw [hgpg]
      exact hS.pow2
    · rw [hglen]
      exact hS.nsPos
    · rw [hgmx]
      exact hS.mxPos
    · intro i p hp
      by_cases hi : i = f.keyOf pnum
      · subst hi
        rw [hShidx] at hp
        rcases List.mem_cons.mp hp with rfl | hp2
        · show dW.length = g.pgsize
          rw [hgpg, hdW, copyIdx_length]
          exact hMid.dLen
        · rw [hgpg]
          exact hMid.iData p hp2
      · rw [hShav i hi] at hp
        rw [hgpg]
        exact hS.dataLen i p hp
    · intro i p hp
      by_cases hi : i = f.keyOf pnum
      · subst hi
        rw [hShidx] at hp
        rcases List.mem_cons.mp hp with rfl | hp2
        · rw [hgkey]
        · rw [hgkey]
          exact hMid.iPlaced p hp2
      · rw [hShav i hi] at hp
        rw [hgkey]
        exact hS.placed i p hp
    · intro i
      by_cases hi : i = f.keyOf pnum
      · subst hi
        rw [hShidx]
        simp only [List.map_cons, List.nodup_cons]
        constructor
        · intro hmem
          obtain ⟨p, hp, hnum⟩ := List.mem_map.mp hmem
          exact hMid.iNoP p hp hnum
        · exact hMid.iKeys
      · rw [hShav i hi]
        exact hS.ndKeys i
    · intro i
      by_cases hi : i = f.keyOf pnum
      · subst hi
        rw [hShidx]
        show dirtyW.Nodup
        rw [hdiW]
        split
        · exact hMid.dNodup
        · rename_i hc0
          exact List.Nodup.cons (by simpa using hc0) hMid.dNodup
      · rw [hShav i hi]
        exact hS.ndDirty i
    · intro i d hd
      by_cases hi : i = f.keyOf pnum
      · subst hi
        rw [hShidx] at hd ⊢
        have hd2 : d = pnum ∨ d ∈ dirty0 := by
          revert hd
          show d ∈ dirtyW → _
          rw [hdiW]
          split
          · exact fun h => Or.inr h
          · intro h
            rcases List.mem_cons.mp h with h | h
            · exact Or.inl h
            · exact Or.inr h
        rcases hd2 with rfl | hd3
        · exact ⟨⟨d, dW⟩, List.mem_cons_self _ _, rfl⟩
        · rcases hMid.dSub d hd3 with rfl | ⟨p, hp, hnum⟩
          · exact ⟨⟨d, dW⟩, List.mem_cons_self _ _, rfl⟩
          · exact ⟨p, List.mem_cons_of_mem _ hp, hnum⟩
      · rw [hShav i hi] at hd ⊢
        exact hS.dirtySub i d hd
    · intro i d hd
      rw [hgpg, hgsz]
      by_cases hi : i = f.keyOf pnum
      · subst hi
        rw [hShidx] at hd
        have hd2 : d = pnum ∨ d ∈ dirty0 := by
          revert hd
          show d ∈ dirtyW → _
          rw [hdiW]
          split
          · exact fun h => Or.inr h
          · intro h
            rcases List.mem_cons.mp h with h | h
            · exact Or.inl h
            · exact Or.inr h
        rcases hd2 with rfl | hd3
        · push_cast at hsz ⊢
          omega
        · exact hMid.dLt d hd3
      · rw [hShav i hi] at hd
        exact hS.dirtyLt i d hd
  · -- MInv g (ws ++ [chunk])
    intro o v hv
    rw [lastWritten_append_one] at hv
    by_cases hin : pnum * f.pgsize + pstart ≤ o ∧ o < pnum * f.pgsize + pstart + c.length
    · rw [if_pos hin] at hv
      rw [Option.some_inj] at hv
      have hov : o < pnum * f.pgsize + pend := by omega
      have hdm := pageDecomp f.pgsize pnum (o - pnum * f.pgsize) hw (by omega)
      have ho : pnum * f.pgsize + (o - pnum * f.pgsize) = o := by omega
      rw [ho] at hdm
      obtain ⟨hdiv, hmod⟩ := hdm
      refine ⟨?_, ?_, ?_⟩
      · rw [hgsz]
        push_cast at hsz ⊢
        omega
      · intro p hp
        rw [hgpg, hdiv, hL1, Option.some_inj] at hp
        subst hp
        constructor
        · show dW.getD (o % g.pgsize) 0 = v
          rw [hgpg, hmod, hdW,
            copyIdx_getD _ 0 (o - pnum * f.pgsize) data1 (by rw [hMid.dLen]; omega)]
          simp only [Nat.zero_add]
          rw [if_pos ⟨by omega, by omega, by omega⟩]
          rw [show o - pnum * f.pgsize - pstart = o - (pnum * f.pgsize + pstart) by omega]
          exact hv
        · intro hdf
          rw [hgpg, hdiv, hL3] at hdf
          exact absurd hdf (by simp)
      · intro hp
        rw [hgpg, hdiv, hL1] at hp
        exact absurd hp (by simp)
    · rw [if_neg hin] at hv
      by_cases hq : o / f.pgsize = pnum
      · have hrec : (o / f.pgsize) * f.pgsize + o % f.pgsize = o := pageRecomp _ o
        rw [hq] at hrec
        have hpos : o % f.pgsize < pstart ∨ pend ≤ o % f.pgsize := by
          by_contra hcon
          push_neg at hcon
          exact hin ⟨by omega, by omega⟩
        obtain ⟨hdata, -⟩ := hMid.mData o v hv hq hpos
        refine ⟨?_, ?_, ?_⟩
        · rw [hgsz]
          exact hMid.mSz o v hv
        · intro p hp
          rw [hgpg, hq, hL1, Option.some_inj] at hp
          subst hp
          constructor
          · show dW.getD (o % g.pgsize) 0 = v
            rw [hgpg, hdW,
              copyIdx_getD _ 0 (o % f.pgsize) data1 (by rw [hMid.dLen]; exact Nat.mod_lt o hw)]
            simp only [Nat.zero_add]
            rw [if_neg ?hcond]
            · exact hdata
            case hcond =>
              rintro ⟨h1, h2, h3⟩
              exact hin ⟨by omega, by omega⟩
          · intro hdf
            rw [hgpg, hq, hL3] at hdf
            exact absurd hdf (by simp)
        · intro hp
          rw [hgpg, hq, hL1] at hp
          exact absurd hp (by simp)
      · have hmm := hMid.mMid o v hv hq
        have hpgM : (Pager.pgsize { f1 with
            shards := f1.shards.set (f.keyOf pnum) ⟨items0, dirty0⟩ }) = f.pgsize := hMid.pgEq
        show MInvAt g o v
        refine MInvAt_transfer o v ?_ ?_ ?_ ?_ ?_ hmm
        · rfl
        · rfl
        · rfl
        · rw [hpgM]
          exact hL2 _ hq
        · rw [hpgM]
          exact hL4 _ hq

theorem pioApply_read_inv
    {f f1 : Pager} {ws : List (ℕ × List ℕ)} {pnum pstart pend : ℕ} {c : List ℕ}
    {items0 : List Page} {dirty0 : List ℕ} {data1 : List ℕ}
    (hS : SInv f) (hMid : Mid f ws pnum pstart pend f1 items0 dirty0 data1)
    (hIn : MidIn f ws pnum pstart pend f1 dirty0 data1)
    (hps : pstart < pend) (hpe : pend ≤ f.pgsize) (hlen : c.length = pend - pstart) :
    ∃ bout,
      (f1.pioApply (f.keyOf pnum) items0 dirty0 data1 c pnum pstart pend false).1 = .ok bout ∧
      bout.length = c.length ∧
      (∀ j, j < c.length → ∀ v,
        lastWritten ws (pnum * f.pgsize + pstart + j) = some v → bout.getD j 0 = v) ∧
      SInv (f1.pioApply (f.keyOf pnum) items0 dirty0 data1 c pnum pstart pend false).2 ∧
      MInv (f1.pioApply (f.keyOf pnum) items0 dirty0 data1 c pnum pstart pend false).2 ws ∧
      (f1.pioApply (f.keyOf pnum) items0 dirty0 data1 c pnum pstart pend
        false).2.pgsize = f.pgsize ∧
      (f1.pioApply (f.keyOf pnum) items0 dirty0 data1 c pnum pstart pend
        false).2.pgmax = f.pgmax ∧
      (f1.pioApply (f.keyOf pnum) items0 dirty0 data1 c pnum pstart pend
        false).2.size = f.size ∧
      (f1.pioApply (f.keyOf pnum) items0 dirty0 data1 c pnum pstart pend
        false).2.shards.length = f.shards.length ∧
      (f1.pioApply (f.keyOf pnum) items0 dirty0 data1 c pnum pstart pend
        false).2.file.statOk = true ∧
      (f1.pioApply (f.keyOf pnum) items0 dirty0 data1 c pnum pstart pend
        false).2.file.failWrites = false := by
  have hw : 0 < f.pgsize := hS.pgPos
  have hlen1 : f1.shards.length = f.shards.length := by rw [hMid.shEq]
  have hidx : f.keyOf pnum < f1.shards.length := by
    rw [hlen1]
    exact keyOf_lt f pnum hS.nsPos
  have hkey1 : f1.keyOf pnum = f.keyOf pnum := keyOf_congr hlen1 pnum
  have hm : min (pend - pstart) c.length = c.length := by omega
  have hres : f1.pioApply (f.keyOf pnum) items0 dirty0 data1 c pnum pstart pend false =
      (.ok (((data1.drop pstart).take (min (pend - pstart) c.length)) ++
          c.drop (min (pend - pstart) c.length)),
        { f1 with
          shards := f1.shards.set (f.keyOf pnum) ⟨⟨pnum, data1⟩ :: items0, dirty0⟩ }) := rfl
  rw [hres]
  set bout := ((data1.drop pstart).take (min (pend - pstart) c.length)) ++
    c.drop (min (pend - pstart) c.length) with hbout
  set g : Pager :=
    { f1 with shards := f1.shards.set (f.keyOf pnum) ⟨⟨pnum, data1⟩ :: items0, dirty0⟩ } with hg
  have hgpg : g.pgsize = f.pgsize := hMid.pgEq
  have hgmx : g.pgmax = f.pgmax := hMid.mxEq
  have hgsz : g.size = f.size := hMid.szEq
  have hglen : g.shards.length = f.shards.length := by
    rw [hg]
    simpa using hlen1
  have hgkey : ∀ q, g.keyOf q = f.keyOf q := keyOf_congr hglen
  have hShidx : g.shardAt (f.keyOf pnum) = ⟨⟨pnum, data1⟩ :: items0, dirty0⟩ :=
    shardAt_set_self f1 _ _ hidx
  have hShav : ∀ i, i ≠ f.keyOf pnum → g.shardAt i = f.shardAt i := by
    intro i hi
    rw [hg, shardAt_set_other _ _ _ _ hi]
    exact shardAt_congr hMid.shEq i
  have hL1 : g.cachedAt pnum = some ⟨pnum, data1⟩ := by
    rw [hg, cachedAt_set_self hidx _ hkey1]
    rw [List.find?_cons_of_pos _ (by simp)]
  have hL2 : ∀ q, q ≠ pnum → g.cachedAt q =
      Pager.cachedAt { f1 with
        shards := f1.shards.set (f.keyOf pnum) ⟨items0, dirty0⟩ } q := by
    intro q hq
    by_cases hkq : f1.keyOf q = f.keyOf pnum
    · rw [hg, cachedAt_set_self hidx _ hkq, cachedAt_set_self hidx _ hkq]
      rw [List.find?_cons_of_neg _ (by simp [Ne.symm hq])]
    · rw [hg, cachedAt_set_other _ hkq, cachedAt_set_other _ hkq]
  have hL3 : g.isDirty pnum = dirty0.contains pnum := by
    rw [hg, isDirty_set_self hidx _ hkey1]
  have hL4 : ∀ q, q ≠ pnum → g.isDirty q =
      Pager.isDirty { f1 with
        shards := f1.shards.set (f.keyOf pnum) ⟨items0, dirty0⟩ } q := by
    intro q hq
    by_cases hkq : f1.keyOf q = f.keyOf pnum
    · rw [hg, isDirty_set_self hidx _ hkq, isDirty_set_self hidx _ hkq]
    · rw [hg, isDirty_set_other _ hkq, isDirty_set_other _ hkq]
  have hblen : bout.length = c.length := by
    rw [hbout]
    simp only [List.length_append, List.length_take, List.length_drop]
    rw [hMid.dLen]
    omega
  refine ⟨bout, rfl, hblen, ?_, ?_, ?_, hgpg, hgmx, hgsz, hglen, hMid.stOK, hMid.fwOK⟩
  · -- returned bytes
    intro j hj v hv
    have hjd : pstart + j < data1.length := by
      rw [hMid.dLen]
      omega
    have hbv : bout.getD j 0 = data1.getD (pstart + j) 0 := by
      rw [hbout, hm]
      rw [List.getD_eq_getElem?_getD, List.getElem?_append,
        if_pos (by simp [List.length_take, List.length_drop, hMid.dLen]; omega)]
      rw [List.getElem?_take, if_pos hj, List.getElem?_drop]
      rw [List.getD_eq_getElem?_getD]
    rw [hbv]
    have hdm := pageDecomp f.pgsize pnum (pstart + j) hw (by omega)
    have hwv := hIn (pnum * f.pgsize + (pstart + j)) v
      (by rw [← Nat.add_assoc]; exact hv) (by rw [hdm.1])
      (by rw [hdm.2]; omega) (by rw [hdm.2]; omega)
    rw [hdm.2] at hwv
    exact hwv.1
  · -- SInv g
    refine ⟨?_, ?_, ?_, ?_, ?_, ?_, ?_, ?_, ?_, hMid.fwOK, hMid.stOK⟩
    · rw [hgpg]
      exact hS.pow2
    · rw [hglen]
      exact hS.nsPos
    · rw [hgmx]
      exact hS.mxPos
    · intro i p hp
      by_cases hi : i = f.keyOf pnum
      · subst hi
        rw [hShidx] at hp
        rcases List.mem_cons.mp hp with rfl | hp2
        · show data1.length = g.pgsize
          rw [hgpg]
          exact hMid.dLen
        · rw [hgpg]
          exact hMid.iData p hp2
      · rw [hShav i hi] at hp
        rw [hgpg]
        exact hS.dataLen i p hp
    · intro i p hp
      by_cases hi : i = f.keyOf pnum
      · subst hi
        rw [hShidx] at hp
        rcases List.mem_cons.mp hp with rfl | hp2
        · rw [hgkey]
        · rw [hgkey]
          exact hMid.iPlaced p hp2
      · rw [hShav i hi] at hp
        rw [hgkey]
        exact hS.placed i p hp
    · intro i
      by_cases hi : i = f.keyOf pnum
      · subst hi
        rw [hShidx]
        simp only [List.map_cons, List.nodup_cons]
        constructor
        · intro hmem
          obtain ⟨p, hp, hnum⟩ := List.mem_map.mp hmem
          exact hMid.iNoP p hp hnum
        · exact hMid.iKeys
      · rw [hShav i hi]
        exact hS.ndKeys i
    · intro i
      by_cases hi : i = f.keyOf pnum
      · subst hi
        rw [hShidx]
        exact hMid.dNodup
      · rw [hShav i hi]
        exact hS.ndDirty i
    · intro i d hd
      by_cases hi : i = f.keyOf pnum
      · subst hi
        rw [hShidx] at hd ⊢
        rcases hMid.dSub d hd with rfl | ⟨p, hp, hnum⟩
        · exact ⟨⟨d, data1⟩, List.mem_cons_self _ _, rfl⟩
        · exact ⟨p, List.mem_cons_of_mem _ hp, hnum⟩
      · rw [hShav i hi] at hd ⊢
        exact hS.dirtySub i d hd
    · intro i d hd
      rw [hgpg, hgsz]
      by_cases hi : i = f.keyOf pnum
      · subst hi
        rw [hShidx] at hd
        exact hMid.dLt d hd
      · rw [hShav i hi] at hd
        exact hS.dirtyLt i d hd
  · -- MInv g ws
    intro o v hv
    by_cases hq : o / f.pgsize = pnum
    · have hcover : data1.getD (o % f.pgsize) 0 = v ∧
          (dirty0.contains pnum = false → o < f1.file.flen ∧ f1.file.fdata o = v) := by
        rcases lt_or_le (o % f.pgsize) pstart with h1 | h1
        · exact hMid.mData o v hv hq (Or.inl h1)
        · rcases lt_or_le (o % f.pgsize) pend with h2 | h2
          · exact hIn o v hv hq h1 h2
          · exact hMid.mData o v hv hq (Or.inr h2)
      obtain ⟨hdata, hclean⟩ := hcover
      refine ⟨?_, ?_, ?_⟩
      · rw [hgsz]
        exact hMid.mSz o v hv
      · intro p hp
        rw [hgpg, hq, hL1, Option.some_inj] at hp
        subst hp
        constructor
        · show data1.getD (o % g.pgsize) 0 = v
          rw [hgpg]
          exact hdata
        · intro hdf
          rw [hgpg, hq, hL3] at hdf
          exact hclean hdf
      · intro hp
        rw [hgpg, hq, hL1] at hp
        exact absurd hp (by simp)
    · have hmm := hMid.mMid o v hv hq
      have hpgM : (Pager.pgsize { f1 with
          shards := f1.shards.set (f.keyOf pnum) ⟨items0, dirty0⟩ }) = f.pgsize := hMid.pgEq
      show MInvAt g o v
      refine MInvAt_transfer o v ?_ ?_ ?_ ?_ ?_ hmm
      · rfl
      · rfl
      · rfl
      · rw [hpgM]
        exact hL2 _ hq
      · rw [hpgM]
        exact hL4 _ hq

theorem cachedAt_congr {fA fB : Pager} (h : fB.shards = fA.shards) (q : ℕ) :
    fB.cachedAt q = fA.cachedAt q := by
  unfold Pager.cachedAt Pager.keyOf Pager.shardAt
  rw [h]

theorem isDirty_congr {fA fB : Pager} (h : fB.shards = fA.shards) (q : ℕ) :
    fB.isDirty q = fA.isDirty q := by
  unfold Pager.isDirty Pager.keyOf Pager.shardAt
  rw [h]

/-- State of a `pio` miss after the page buffer has been acquired but before
the read-from-file step: the invariant pieces that do not mention the buffer
contents, plus the fact that the log's bytes of the missing page sit in the
(possibly just written-back) backing file. -/
structure PreMid (f : Pager) (ws : List (ℕ × List ℕ)) (pnum : ℕ) (f1 : Pager)
    (items0 : List Page) (dirty0 : List ℕ) : Prop where
  shEq : f1.shards = f.shards
  pgEq : f1.pgsize = f.pgsize
  mxEq : f1.pgmax = f.pgmax
  szEq : f1.size = f.size
  stOK : f1.file.statOk = true
  fwOK : f1.file.failWrites = false
  iData : ∀ p ∈ items0, p.data.length = f.pgsize
  iPlaced : ∀ p ∈ items0, f.keyOf p.num = f.keyOf pnum
  iKeys : (items0.map Page.num).Nodup
  iNoP : ∀ p ∈ items0, p.num ≠ pnum
  dNodup : dirty0.Nodup
  dSub : ∀ d ∈ dirty0, d = pnum ∨ ∃ p ∈ items0, p.num = d
  dLt : ∀ d ∈ dirty0, ((d * f.pgsize : ℕ) : ℤ) < f.size
  dNoP : dirty0.contains pnum = false
  mSz : ∀ o v, lastWritten ws o = some v → ((o : ℤ) < f.size)
  mFile : ∀ o v, lastWritten ws o = some v → o / f.pgsize = pnum →
    o < f1.file.flen ∧ f1.file.fdata o = v
  mMid : ∀ o v, lastWritten ws o = some v → o / f.pgsize ≠ pnum →
    MInvAt { f1 with shards := f1.shards.set (f.keyOf pnum) (Shard.mk items0 dirty0) } o v

/-- Reading the acquired buffer from the backing file makes it hold every
logged byte of the page. -/
theorem mid_of_preMid_load {f : Pager} {ws : List (ℕ × List ℕ)} {pnum : ℕ} {f1 : Pager}
    {items0 : List Page} {dirty0 : List ℕ} {data0 : List ℕ} (pstart pend : ℕ)
    (hP : PreMid f ws pnum f1 items0 dirty0) (hd0 : data0.length = f.pgsize)
    (hw : 0 < f.pgsize) :
    Mid f ws pnum pstart pend f1 items0 dirty0
      (f1.file.readInto data0 (pnum * f.pgsize)) ∧
    MidIn f ws pnum pstart pend f1 dirty0 (f1.file.readInto data0 (pnum * f.pgsize)) := by
  have hval : ∀ o v, lastWritten ws o = some v → o / f.pgsize = pnum →
      (f1.file.readInto data0 (pnum * f.pgsize)).getD (o % f.pgsize) 0 = v ∧
      (dirty0.contains pnum = false → o < f1.file.flen ∧ f1.file.fdata o = v) := by
    intro o v hv hq
    obtain ⟨hlt, hdat⟩ := hP.mFile o v hv hq
    have hrec : (o / f.pgsize) * f.pgsize + o % f.pgsize = o := pageRecomp _ o
    rw [hq] at hrec
    constructor
    · rw [BFile.readInto_getD _ _ _ _ (by rw [hd0]; exact Nat.mod_lt o hw)]
      rw [if_pos (by omega)]
      rw [show pnum * f.pgsize + o % f.pgsize = o by omega]
      exact hdat
    · intro _
      exact ⟨hlt, hdat⟩
  refine ⟨⟨hP.shEq, hP.pgEq, hP.mxEq, hP.szEq, hP.stOK, hP.fwOK, ?_, hP.iData, hP.iPlaced,
    hP.iKeys, hP.iNoP, hP.dNodup, hP.dSub, hP.dLt, hP.mSz, ?_, hP.mMid⟩, ?_⟩
  · rw [BFile.readInto_length, hd0]
  · intro o v hv hq _
    exact hval o v hv hq
  · intro o v hv hq _ _
    exact hval o v hv hq

/-- A full-page write needs nothing from the acquired buffer: the chunk
covers the whole page, so no byte of the stale buffer survives. -/
theorem mid_of_preMid_full {f : Pager} {ws : List (ℕ × List ℕ)} {pnum : ℕ} {f1 : Pager}
    {items0 : List Page} {dirty0 : List ℕ} {data0 : List ℕ}
    (hP : PreMid f ws pnum f1 items0 dirty0) (hd0 : data0.length = f.pgsize)
    (hw : 0 < f.pgsize) :
    Mid f ws pnum 0 f.pgsize f1 items0 dirty0 data0 :=
  ⟨hP.shEq, hP.pgEq, hP.mxEq, hP.szEq, hP.stOK, hP.fwOK, hd0, hP.iData, hP.iPlaced,
    hP.iKeys, hP.iNoP, hP.dNodup, hP.dSub, hP.dLt, hP.mSz,
    fun o _ _ _ hpos => by
      rcases hpos with h | h
      · exact absurd h (by omega)
      · exact absurd h (by have := Nat.mod_lt o hw; omega),
    hP.mMid⟩

/-- A cache hit yields the intermediate state directly: the page is
detached, its buffer already holds the logged bytes. -/
theorem mid_of_hit {f : Pager} {ws : List (ℕ × List ℕ)} {pnum : ℕ} {p : Page}
    (pstart pend : ℕ) (hS : SInv f) (hM : MInv f ws)
    (hfind : (f.shardAt (f.keyOf pnum)).items.find? (fun q => q.num == pnum) = some p) :
    Mid f ws pnum pstart pend f
      ((f.shardAt (f.keyOf pnum)).items.eraseP (fun q => q.num == pnum))
      (f.shardAt (f.keyOf pnum)).dirty p.data ∧
    MidIn f ws pnum pstart pend f (f.shardAt (f.keyOf pnum)).dirty p.data := by
  have hidx : f.keyOf pnum < f.shards.length := keyOf_lt f pnum hS.nsPos
  obtain ⟨hpm, hpn⟩ := find?_num_some hfind
  have hcached : f.cachedAt pnum = some p := hfind
  have hval : ∀ o v, lastWritten ws o = some v → o / f.pgsize = pnum →
      p.data.getD (o % f.pgsize) 0 = v ∧
      ((f.shardAt (f.keyOf pnum)).dirty.contains pnum = false →
        o < f.file.flen ∧ f.file.fdata o = v) := by
    intro o v hv hq
    obtain ⟨-, hsome, -⟩ := hM o v hv
    have hsp := hsome p (by rw [hq]; exact hcached)
    refine ⟨hsp.1, ?_⟩
    intro hcln
    exact hsp.2 (by rw [Pager.isDirty, hq]; exact hcln)
  have hmmid : ∀ o v, lastWritten ws o = some v → o / f.pgsize ≠ pnum →
      MInvAt
        { f with
          shards :=
            f.shards.set (f.keyOf pnum)
              (Shard.mk
                ((f.shardAt (f.keyOf pnum)).items.eraseP (fun q => q.num == pnum))
                (f.shardAt (f.keyOf pnum)).dirty) }
        o v := by
    intro o v hv hq
    refine MInvAt_transfer o v ?_ ?_ ?_ ?_ ?_ (hM o v hv)
    · rfl
    · rfl
    · rfl
    · by_cases hkq : f.keyOf (o / f.pgsize) = f.keyOf pnum
      · rw [cachedAt_set_self hidx _ hkq]
        show _ = (f.shardAt (f.keyOf (o / f.pgsize))).items.find? (fun q => q.num == o / f.pgsize)
        rw [hkq]
        exact (find?_eraseP_ne _ _ _ hq)
      · rw [cachedAt_set_other _ hkq]
    · by_cases hkq : f.keyOf (o / f.pgsize) = f.keyOf pnum
      · rw [isDirty_set_self hidx _ hkq]
        show _ = (f.shardAt (f.keyOf (o / f.pgsize))).dirty.contains (o / f.pgsize)
        rw [hkq]
      · rw [isDirty_set_other _ hkq]
  refine ⟨⟨rfl, rfl, rfl, rfl, hS.stOK, hS.fwOK, ?_, ?_, ?_, ?_, ?_, ?_, ?_, ?_, ?_, ?_,
    hmmid⟩, ?_⟩
  · exact hS.dataLen _ p hpm
  · intro q hq
    exact hS.dataLen _ q (mem_eraseP_num hq)
  · intro q hq
    exact hS.placed (f.keyOf pnum) q (mem_eraseP_num hq)
  · exact keys_nodup_eraseP (hS.ndKeys _)
  · exact eraseP_num_ne (hS.ndKeys _)
  · exact hS.ndDirty _
  · intro d hd
    rcases Classical.em (d = pnum) with rfl | hne
    · exact Or.inl rfl
    · obtain ⟨q, hqm, hqn⟩ := hS.dirtySub _ d hd
      refine Or.inr ⟨q, ?_, hqn⟩
      rw [List.mem_eraseP_of_neg (by simp [hqn, hne])]
      exact hqm
  · exact hS.dirtyLt _
  · intro o v hv
    exact (hM o v hv).1
  · intro o v hv hq _
    exact hval o v hv hq
  · intro o v hv hq _ _
    exact hval o v hv hq

theorem contains_erase_ne (l : List ℕ) (a b : ℕ) (h : a ≠ b) :
    (l.erase b).contains a = l.contains a := by
  by_cases hm : a ∈ l
  · simp [(List.mem_erase_of_ne h).mpr hm, hm]
  · have hm2 : a ∉ l.erase b := fun hc => hm (List.mem_of_mem_erase hc)
    simp [hm, hm2]

/-- Like `MInvAt_transfer`, but allowing the backing file to take a step
that only grows its length and does not change the byte at `o`. -/
theorem MInvAt_file_step {f : Pager} {o v : ℕ} {fB : Pager}
    (h : MInvAt f o v)
    (hflen : f.file.flen ≤ fB.file.flen)
    (hfd : o < f.file.flen → fB.file.fdata o = f.file.fdata o)
    (hpg : fB.pgsize = f.pgsize) (hsz : fB.size = f.size)
    (hc : fB.cachedAt (o / f.pgsize) = f.cachedAt (o / f.pgsize))
    (hd : fB.isDirty (o / f.pgsize) = f.isDirty (o / f.pgsize)) :
    MInvAt fB o v := by
  obtain ⟨h1, h2, h3⟩ := h
  refine ⟨by rw [hsz]; exact h1, ?_, ?_⟩
  · intro p hp
    rw [hpg, hc] at hp
    obtain ⟨hv2, hcl⟩ := h2 p hp
    refine ⟨by rw [hpg]; exact hv2, ?_⟩
    intro hdf
    rw [hpg, hd] at hdf
    obtain ⟨hlt, hval⟩ := hcl hdf
    exact ⟨by omega, by rw [hfd hlt]; exact hval⟩
  · intro hp
    rw [hpg, hc] at hp
    obtain ⟨hlt, hval⟩ := h3 hp
    exact ⟨by omega, by rw [hfd hlt]; exact hval⟩

theorem dirty_not_contains_of_find_none {f : Pager} {pnum : ℕ}
    (hS : SInv f)
    (hfind : (f.shardAt (f.keyOf pnum)).items.find? (fun q => q.num == pnum) = none) :
    (f.shardAt (f.keyOf pnum)).dirty.contains pnum = false := by
  rw [Bool.eq_false_iff]
  intro hcont
  have hmem : pnum ∈ (f.shardAt (f.keyOf pnum)).dirty := by simpa using hcont
  obtain ⟨q, hq, hqn⟩ := hS.dirtySub _ pnum hmem
  exact find?_num_none hfind q hq hqn

/-- A miss into a shard below capacity: the buffer is fresh, nothing is
detached. -/
theorem preMid_of_miss {f : Pager} {ws : List (ℕ × List ℕ)} {pnum : ℕ}
    (hS : SInv f) (hM : MInv f ws)
    (hfind : (f.shardAt (f.keyOf pnum)).items.find? (fun q => q.num == pnum) = none) :
    PreMid f ws pnum f (f.shardAt (f.keyOf pnum)).items (f.shardAt (f.keyOf pnum)).dirty := by
  have hidx : f.keyOf pnum < f.shards.length := keyOf_lt f pnum hS.nsPos
  refine ⟨rfl, rfl, rfl, rfl, hS.stOK, hS.fwOK, hS.dataLen _, hS.placed _, hS.ndKeys _,
    find?_num_none hfind, hS.ndDirty _, ?_, hS.dirtyLt _,
    dirty_not_contains_of_find_none hS hfind, ?_, ?_, ?_⟩
  · intro d hd
    exact Or.inr (hS.dirtySub _ d hd)
  · intro o v hv
    exact (hM o v hv).1
  · intro o v hv hq
    exact (hM o v hv).2.2 (by rw [hq]; exact hfind)
  · intro o v hv hq
    refine MInvAt_transfer o v ?_ ?_ ?_ ?_ ?_ (hM o v hv)
    · rfl
    · rfl
    · rfl
    · by_cases hkq : f.keyOf (o / f.pgsize) = f.keyOf pnum
      · rw [cachedAt_set_self hidx _ hkq]
        show _ = (f.shardAt (f.keyOf (o / f.pgsize))).items.find? (fun q => q.num == o / f.pgsize)
        rw [hkq]
      · rw [cachedAt_set_other _ hkq]
    · by_cases hkq : f.keyOf (o / f.pgsize) = f.keyOf pnum
      · rw [isDirty_set_self hidx _ hkq]
        show _ = (f.shardAt (f.keyOf (o / f.pgsize))).dirty.contains (o / f.pgsize)
        rw [hkq]
      · rw [isDirty_set_other _ hkq]

theorem MInvAt_of_uncached {fB : Pager} {o v : ℕ}
    (ha : (o : ℤ) < fB.size)
    (hc : fB.cachedAt (o / fB.pgsize) = none)
    (hfile : o < fB.file.flen ∧ fB.file.fdata o = v) :
    MInvAt fB o v :=
  ⟨ha, fun p hp => absurd (hc ▸ hp) (by simp), fun _ => hfile⟩

theorem cachedAt_of_getLast {f : Pager} {pnum : ℕ} {p0 : Page} (hS : SInv f)
    (hlast : (f.shardAt (f.keyOf pnum)).items.getLast? = some p0) :
    f.cachedAt p0.num = some p0 ∧ f.keyOf p0.num = f.keyOf pnum := by
  have hp0m := getLast?_mem hlast
  have hk := hS.placed (f.keyOf pnum) p0 hp0m
  constructor
  · show (f.shardAt (f.keyOf p0.num)).items.find? (fun q => q.num == p0.num) = some p0
    rw [hk]
    exact find?_of_mem_ndKeys (hS.ndKeys _) hp0m
  · exact hk

/-- Evicting a clean LRU page: it simply drops out of the cache; its bytes
were already in the backing file because it was clean. -/
theorem preMid_of_evict_clean {f : Pager} {ws : List (ℕ × List ℕ)} {pnum : ℕ} {p0 : Page}
    (hS : SInv f) (hM : MInv f ws)
    (hfind : (f.shardAt (f.keyOf pnum)).items.find? (fun q => q.num == pnum) = none)
    (hlast : (f.shardAt (f.keyOf pnum)).items.getLast? = some p0)
    (hclean : (f.shardAt (f.keyOf pnum)).dirty.contains p0.num = false) :
    PreMid f ws pnum f (f.shardAt (f.keyOf pnum)).items.dropLast
      (f.shardAt (f.keyOf pnum)).dirty := by
  have hidx : f.keyOf pnum < f.shards.length := keyOf_lt f pnum hS.nsPos
  obtain ⟨hc0, hk0⟩ := cachedAt_of_getLast hS hlast
  have hp0m := getLast?_mem hlast
  have hnotof : p0.num ∉ (f.shardAt (f.keyOf pnum)).dirty := by simpa using hclean
  have hsub : (f.shardAt (f.keyOf pnum)).items.dropLast ⊆
      (f.shardAt (f.keyOf pnum)).items := (List.dropLast_sublist _).subset
  refine ⟨rfl, rfl, rfl, rfl, hS.stOK, hS.fwOK, ?_, ?_, keys_nodup_dropLast (hS.ndKeys _),
    ?_, hS.ndDirty _, ?_, hS.dirtyLt _, dirty_not_contains_of_find_none hS hfind, ?_, ?_, ?_⟩
  · intro q hq
    exact hS.dataLen _ q (hsub hq)
  · intro q hq
    exact hS.placed _ q (hsub hq)
  · intro q hq
    exact find?_num_none hfind q (hsub hq)
  · intro d hd
    obtain ⟨q, hq, hqn⟩ := hS.dirtySub _ d hd
    have hdne : d ≠ p0.num := fun he => hnotof (he ▸ hd)
    have hqne : q ≠ p0 := fun he => hdne (by rw [← hqn, he])
    exact Or.inr ⟨q, mem_dropLast_of_ne hlast hq hqne, hqn⟩
  · intro o v hv
    exact (hM o v hv).1
  · intro o v hv hq
    exact (hM o v hv).2.2 (by rw [hq]; exact hfind)
  · intro o v hv hq
    by_cases hkq : f.keyOf (o / f.pgsize) = f.keyOf pnum
    · by_cases hqp0 : o / f.pgsize = p0.num
      · obtain ⟨ha, hsome, -⟩ := hM o v hv
        have hsp := hsome p0 (by rw [hqp0]; exact hc0)
        have hflags : f.isDirty (o / f.pgsize) = false := by
          rw [hqp0]
          show (f.shardAt (f.keyOf p0.num)).dirty.contains p0.num = false
          rw [hk0]
          exact hclean
        obtain ⟨hlt, hval⟩ := hsp.2 hflags
        apply MInvAt_of_uncached
        · exact ha
        · show Pager.cachedAt _ (o / f.pgsize) = none
          rw [cachedAt_set_self hidx _ hkq]
          show List.find? _ _ = none
          rw [show (fun q => q.num == o / f.pgsize) = (fun q : Page => q.num == p0.num) by
            rw [hqp0]]
          exact find?_dropLast_self hlast (hS.ndKeys _)
        · exact ⟨hlt, hval⟩
      · refine MInvAt_transfer o v ?_ ?_ ?_ ?_ ?_ (hM o v hv)
        · rfl
        · rfl
        · rfl
        · rw [cachedAt_set_self hidx _ hkq]
          show _ = (f.shardAt (f.keyOf (o / f.pgsize))).items.find? (fun q => q.num == o / f.pgsize)
          rw [hkq]
          exact find?_dropLast_ne hlast (fun he => hqp0 he.symm)
        · rw [isDirty_set_self hidx _ hkq]
          show _ = (f.shardAt (f.keyOf (o / f.pgsize))).dirty.contains (o / f.pgsize)
          rw [hkq]
    · refine MInvAt_transfer o v ?_ ?_ ?_ ?_ ?_ (hM o v hv)
      · rfl
      · rfl
      · rfl
      · rw [cachedAt_set_other _ hkq]
      · rw [isDirty_set_other _ hkq]

/-- The (signed) number of bytes `Pager.write` writes back for page `p`:
`pgsize`, truncated at the logical size for the tail page. -/
def Pager.wEnd (f : Pager) (p : Page) : ℤ :=
  if ((p.num * f.pgsize : ℕ) : ℤ) + (f.pgsize : ℤ) > f.size then
    f.size - ((p.num * f.pgsize : ℕ) : ℤ)
  else (f.pgsize : ℤ)

theorem Pager.write_ok_of {f : Pager} {p : Page}
    (hfw : f.file.failWrites = false) (hnn : 0 ≤ f.wEnd p) :
    ∃ fl1, f.write p = .ok { f with file := fl1 } ∧
      f.file.writeAt (p.data.take (f.wEnd p).toNat) (p.num * f.pgsize) = .ok fl1 := by
  obtain ⟨fl1, hok⟩ :=
    BFile.writeAt_isOk f.file (p.data.take (f.wEnd p).toNat) (p.num * f.pgsize) hfw
  refine ⟨fl1, ?_, hok⟩
  have key : f.write p = (if f.wEnd p < 0 then (.error .sliceOOR : Except PErr Pager)
    else match f.file.writeAt (p.data.take (f.wEnd p).toNat) (p.num * f.pgsize) with
      | .error er => .error er
      | .ok fl => .ok { f with file := fl }) := rfl
  rw [key, if_neg (not_lt.mpr hnn), hok]

/-- Evicting a dirty LRU page: the writeback succeeds (healthy file, and the
dirty page starts below the logical size), after which the page's bytes sit
in the backing file and its number leaves the dirty set. -/
theorem preMid_of_evict_dirty {f : Pager} {ws : List (ℕ × List ℕ)} {pnum : ℕ} {p0 : Page}
    (hS : SInv f) (hM : MInv f ws)
    (hfind : (f.shardAt (f.keyOf pnum)).items.find? (fun q => q.num == pnum) = none)
    (hlast : (f.shardAt (f.keyOf pnum)).items.getLast? = some p0)
    (hdirty : (f.shardAt (f.keyOf pnum)).dirty.contains p0.num = true) :
    ∃ fl1, f.write p0 = .ok { f with file := fl1 } ∧
      PreMid f ws pnum { f with file := fl1 } (f.shardAt (f.keyOf pnum)).items.dropLast
        ((f.shardAt (f.keyOf pnum)).dirty.erase p0.num) := by
  have hidx : f.keyOf pnum < f.shards.length := keyOf_lt f pnum hS.nsPos
  obtain ⟨hc0, hk0⟩ := cachedAt_of_getLast hS hlast
  have hp0m := getLast?_mem hlast
  have hd0 : p0.data.length = f.pgsize := hS.dataLen _ p0 hp0m
  have hw : 0 < f.pgsize := hS.pgPos
  have hp0d : p0.num ∈ (f.shardAt (f.keyOf pnum)).dirty := by simpa using hdirty
  have hszlt : ((p0.num * f.pgsize : ℕ) : ℤ) < f.size := hS.dirtyLt _ p0.num hp0d
  have hnn : 0 ≤ f.wEnd p0 := by
    unfold Pager.wEnd
    split
    · omega
    · omega
  obtain ⟨fl1, hwr, hok⟩ := Pager.write_ok_of hS.fwOK hnn
  obtain ⟨hflen1, hfin, hfout, hstat1, hfw1⟩ := BFile.writeAt_ok hok
  have hbsle : (p0.data.take (f.wEnd p0).toNat).length ≤ f.pgsize := by
    rw [List.length_take, hd0]
    exact min_le_right _ _
  have hcov : ∀ o : ℕ, (o : ℤ) < f.size → o / f.pgsize = p0.num →
      p0.num * f.pgsize ≤ o ∧
      o - p0.num * f.pgsize < (p0.data.take (f.wEnd p0).toNat).length := by
    intro o ho hq
    have hrec := pageRecomp f.pgsize o
    rw [hq] at hrec
    have hmlt : o % f.pgsize < f.pgsize := Nat.mod_lt o hw
    refine ⟨by omega, ?_⟩
    rw [List.length_take, hd0]
    refine lt_min ?_ (by omega)
    unfold Pager.wEnd
    split
    · omega
    · omega
  have hout : ∀ o : ℕ, o / f.pgsize ≠ p0.num → fl1.fdata o = f.file.fdata o := by
    intro o hne
    apply hfout
    by_cases hlo : o < p0.num * f.pgsize
    · exact Or.inl hlo
    · right
      by_contra hcon
      push_neg at hcon
      apply hne
      have hsucc : (p0.num + 1) * f.pgsize = p0.num * f.pgsize + f.pgsize := by ring
      exact Nat.div_eq_of_lt_le (by omega) (by omega)
  have hpne : pnum ≠ p0.num := fun he => (find?_num_none hfind p0 hp0m) he.symm
  have hsub : (f.shardAt (f.keyOf pnum)).items.dropLast ⊆
      (f.shardAt (f.keyOf pnum)).items := (List.dropLast_sublist _).subset
  refine ⟨fl1, hwr, rfl, rfl, rfl, rfl, ?_, ?_, ?_, ?_,
    keys_nodup_dropLast (hS.ndKeys _), ?_, (hS.ndDirty _).erase _, ?_, ?_, ?_, ?_, ?_, ?_⟩
  · show fl1.statOk = true
    rw [hstat1]
    exact hS.stOK
  · show fl1.failWrites = false
    rw [hfw1]
    exact hS.fwOK
  · intro q hq
    exact hS.dataLen _ q (hsub hq)
  · intro q hq
    exact hS.placed _ q (hsub hq)
  · intro q hq
    exact find?_num_none hfind q (hsub hq)
  · intro d hd
    obtain ⟨hdne, hdm⟩ := (List.Nodup.mem_erase_iff (hS.ndDirty _)).mp hd
    obtain ⟨q, hq, hqn⟩ := hS.dirtySub _ d hdm
    have hqne : q ≠ p0 := fun he => hdne (by rw [← hqn, he])
    exact Or.inr ⟨q, mem_dropLast_of_ne hlast hq hqne, hqn⟩
  · intro d hd
    exact hS.dirtyLt _ d (List.mem_of_mem_erase hd)
  · rw [contains_erase_ne _ _ _ hpne]
    exact dirty_not_contains_of_find_none hS hfind
  · intro o v hv
    exact (hM o v hv).1
  · intro o v hv hq
    obtain ⟨hlt, hdat⟩ := (hM o v hv).2.2 (by rw [hq]; exact hfind)
    have hqne : o / f.pgsize ≠ p0.num := by rw [hq]; exact hpne
    constructor
    · show o < fl1.flen
      rw [hflen1]
      omega
    · show fl1.fdata o = v
      rw [hout o hqne]
      exact hdat
  · intro o v hv hq
    by_cases hqp0 : o / f.pgsize = p0.num
    · obtain ⟨ha, hsome, -⟩ := hM o v hv
      have hvdata : p0.data.getD (o % f.pgsize) 0 = v :=
        (hsome p0 (by rw [hqp0]; exact hc0)).1
      obtain ⟨hoff, hbnd⟩ := hcov o ha hqp0
      have hrec := pageRecomp f.pgsize o
      rw [hqp0] at hrec
      apply MInvAt_of_uncached
      · exact ha
      · show Pager.cachedAt _ (o / f.pgsize) = none
        rw [cachedAt_set_self
          (show f.keyOf pnum < (Pager.shards { f with file := fl1 }).length from hidx) _
          (show Pager.keyOf { f with file := fl1 } (o / f.pgsize) = f.keyOf pnum by
            show f.keyOf (o / f.pgsize) = f.keyOf pnum
            rw [hqp0]; exact hk0)]
        show List.find? _ _ = none
        rw [show (fun q : Page => q.num == o / f.pgsize) = (fun q : Page => q.num == p0.num) by
          rw [hqp0]]
        exact find?_dropLast_self hlast (hS.ndKeys _)
      · constructor
        · show o < fl1.flen
          rw [hflen1]
          omega
        · show fl1.fdata o = v
          rw [hfin o (by omega) (by omega)]
          rw [show o - p0.num * f.pgsize = o % f.pgsize by omega]
          have hidxlt : o % f.pgsize < (f.wEnd p0).toNat := by
            have h2 := hbnd
            rw [List.length_take] at h2
            omega
          rw [List.getD_eq_getElem?_getD, List.getElem?_take_of_lt hidxlt,
            ← List.getD_eq_getElem?_getD]
          exact hvdata
    · refine MInvAt_file_step (hM o v hv) ?_ ?_ ?_ ?_ ?_ ?_
      · show f.file.flen ≤ fl1.flen
        rw [hflen1]
        exact le_max_left _ _
      · intro _
        show fl1.fdata o = f.file.fdata o
        exact hout o hqp0
      · rfl
      · rfl
      · by_cases hkq : f.keyOf (o / f.pgsize) = f.keyOf pnum
        · rw [cachedAt_set_self
            (show f.keyOf pnum < (Pager.shards { f with file := fl1 }).length from hidx) _
            (show Pager.keyOf { f with file := fl1 } (o / f.pgsize) = f.keyOf pnum from hkq)]
          show _ = (f.shardAt (f.keyOf (o / f.pgsize))).items.find? (fun q => q.num == o / f.pgsize)
          rw [hkq]
          exact find?_dropLast_ne hlast (fun he => hqp0 he.symm)
        · rw [cachedAt_set_other _
            (show Pager.keyOf { f with file := fl1 } (o / f.pgsize) ≠ f.keyOf pnum from hkq)]
          exact cachedAt_congr rfl _
      · by_cases hkq : f.keyOf (o / f.pgsize) = f.keyOf pnum
        · rw [isDirty_set_self
            (show f.keyOf pnum < (Pager.shards { f with file := fl1 }).length from hidx) _
            (show Pager.keyOf { f with file := fl1 } (o / f.pgsize) = f.keyOf pnum from hkq)]
          show _ = (f.shardAt (f.keyOf (o / f.pgsize))).dirty.contains (o / f.pgsize)
          rw [hkq]
          exact contains_erase_ne _ _ _ hqp0
        · rw [isDirty_set_other _
            (show Pager.keyOf { f with file := fl1 } (o / f.pgsize) ≠ f.keyOf pnum from hkq)]
          exact isDirty_congr rfl _

theorem pioLoad_write_inv
    {f f1 : Pager} {ws : List (ℕ × List ℕ)} {pnum pstart pend : ℕ} {c data0 : List ℕ}
    {items0 : List Page} {dirty0 : List ℕ}
    (hS : SInv f) (hP : PreMid f ws pnum f1 items0 dirty0) (hd0 : data0.length = f.pgsize)
    (hps : pstart < pend) (hpe : pend ≤ f.pgsize) (hlen : c.length = pend - pstart)
    (hsz : ((pnum * f.pgsize + pend : ℕ) : ℤ) ≤ f.size) :
    (f1.pioLoad (f.keyOf pnum) items0 dirty0 data0 c pnum pstart pend true).1 = .ok c ∧
    SInv (f1.pioLoad (f.keyOf pnum) items0 dirty0 data0 c pnum pstart pend true).2 ∧
    MInv (f1.pioLoad (f.keyOf pnum) items0 dirty0 data0 c pnum pstart pend true).2
      (ws ++ [(pnum * f.pgsize + pstart, c)]) ∧
    (f1.pioLoad (f.keyOf pnum) items0 dirty0 data0 c pnum pstart pend true).2.pgsize = f.pgsize ∧
    (f1.pioLoad (f.keyOf pnum) items0 dirty0 data0 c pnum pstart pend true).2.pgmax = f.pgmax ∧
    (f1.pioLoad (f.keyOf pnum) items0 dirty0 data0 c pnum pstart pend true).2.size = f.size ∧
    (f1.pioLoad (f.keyOf pnum) items0 dirty0 data0 c pnum pstart pend
      true).2.shards.length = f.shards.length ∧
    (f1.pioLoad (f.keyOf pnum) items0 dirty0 data0 c pnum pstart pend
      true).2.file.statOk = true ∧
    (f1.pioLoad (f.keyOf pnum) items0 dirty0 data0 c pnum pstart pend
      true).2.file.failWrites = false := by
  have hw : 0 < f.pgsize := hS.pgPos
  unfold Pager.pioLoad
  dsimp only
  rw [hP.pgEq]
  by_cases hfull : pend - pstart < f.pgsize
  · rw [if_pos (Or.inr hfull)]
    exact pioApply_write_inv hS (mid_of_preMid_load pstart pend hP hd0 hw).1 hps hpe hlen hsz
  · have h2 : pend = f.pgsize := by omega
    subst h2
    have h1 : pstart = 0 := by omega
    subst h1
    rw [if_neg (by simp)]
    exact pioApply_write_inv hS (mid_of_preMid_full hP hd0 hw) hps hpe hlen hsz

theorem pioLoad_read_inv
    {f f1 : Pager} {ws : List (ℕ × List ℕ)} {pnum pstart pend : ℕ} {c data0 : List ℕ}
    {items0 : List Page} {dirty0 : List ℕ}
    (hS : SInv f) (hP : PreMid f ws pnum f1 items0 dirty0) (hd0 : data0.length = f.pgsize)
    (hps : pstart < pend) (hpe : pend ≤ f.pgsize) (hlen : c.length = pend - pstart) :
    ∃ bout,
      (f1.pioLoad (f.keyOf pnum) items0 dirty0 data0 c pnum pstart pend false).1 = .ok bout ∧
      bout.length = c.length ∧
      (∀ j, j < c.length → ∀ v,
        lastWritten ws (pnum * f.pgsize + pstart + j) = some v → bout.getD j 0 = v) ∧
      SInv (f1.pioLoad (f.keyOf pnum) items0 dirty0 data0 c pnum pstart pend false).2 ∧
      MInv (f1.pioLoad (f.keyOf pnum) items0 dirty0 data0 c pnum pstart pend false).2 ws ∧
      (f1.pioLoad (f.keyOf pnum) items0 dirty0 data0 c pnum pstart pend
        false).2.pgsize = f.pgsize ∧
      (f1.pioLoad (f.keyOf pnum) items0 dirty0 data0 c pnum pstart pend
        false).2.pgmax = f.pgmax ∧
      (f1.pioLoad (f.keyOf pnum) items0 dirty0 data0 c pnum pstart pend
        false).2.size = f.size ∧
      (f1.pioLoad (f.keyOf pnum) items0 dirty0 data0 c pnum pstart pend
        false).2.shards.length = f.shards.length ∧
      (f1.pioLoad (f.keyOf pnum) items0 dirty0 data0 c pnum pstart pend
        false).2.file.statOk = true ∧
      (f1.pioLoad (f.keyOf pnum) items0 dirty0 data0 c pnum pstart pend
        false).2.file.failWrites = false := by
  have hw : 0 < f.pgsize := hS.pgPos
  unfold Pager.pioLoad
  dsimp only
  rw [hP.pgEq]
  rw [if_pos (Or.inl rfl)]
  obtain ⟨hMid, hIn⟩ := mid_of_preMid_load pstart pend hP hd0 hw
  exact pioApply_read_inv hS hMid hIn hps hpe hlen

theorem pio_write_inv {f : Pager} {ws : List (ℕ × List ℕ)} {pnum pstart pend : ℕ} {c : List ℕ}
    (hS : SInv f) (hM : MInv f ws)
    (hps : pstart < pend) (hpe : pend ≤ f.pgsize) (hlen : c.length = pend - pstart)
    (hsz : ((pnum * f.pgsize + pend : ℕ) : ℤ) ≤ f.size) :
    (f.pio c pnum pstart pend true).1 = .ok c ∧
    SInv (f.pio c pnum pstart pend true).2 ∧
    MInv (f.pio c pnum pstart pend true).2 (ws ++ [(pnum * f.pgsize + pstart, c)]) ∧
    (f.pio c pnum pstart pend true).2.pgsize = f.pgsize ∧
    (f.pio c pnum pstart pend true).2.pgmax = f.pgmax ∧
    (f.pio c pnum pstart pend true).2.size = f.size ∧
    (f.pio c pnum pstart pend true).2.shards.length = f.shards.length ∧
    (f.pio c pnum pstart pend true).2.file.statOk = true ∧
    (f.pio c pnum pstart pend true).2.file.failWrites = false := by
  unfold Pager.pio
  dsimp only
  cases hfind : (f.shardAt (f.keyOf pnum)).items.find? (fun p => p.num == pnum) with
  | some p =>
    simp only [hfind]
    exact pioApply_write_inv hS (mid_of_hit pstart pend hS hM hfind).1 hps hpe hlen hsz
  | none =>
    simp only [hfind]
    unfold Pager.pioMiss
    split
    · rename_i hcap
      cases hlast : (f.shardAt (f.keyOf pnum)).items.getLast? with
      | none =>
        exfalso
        have hne : (f.shardAt (f.keyOf pnum)).items ≠ [] := by
          intro h
          rw [h] at hcap
          simp at hcap
          have := hS.mxPos
          omega
        exact hne (List.getLast?_eq_none_iff.mp hlast)
      | some p0 =>
        simp only [hlast]
        have hd0 : p0.data.length = f.pgsize := hS.dataLen _ p0 (getLast?_mem hlast)
        have hdl : (if True ∧ pend - pstart < f.pgsize
            then p0.data.map (fun _ => 0) else p0.data).length = f.pgsize := by
          split
          · rw [List.length_map]; exact hd0
          · exact hd0
        split
        · rename_i hdirty
          obtain ⟨fl1, hwr, hP⟩ := preMid_of_evict_dirty hS hM hfind hlast hdirty
          rw [hwr]
          exact pioLoad_write_inv hS hP hdl hps hpe hlen hsz
        · rename_i hdirty
          exact pioLoad_write_inv hS
            (preMid_of_evict_clean hS hM hfind hlast (Bool.eq_false_iff.mpr hdirty)) hdl
            hps hpe hlen hsz
    · exact pioLoad_write_inv hS (preMid_of_miss hS hM hfind) (List.length_replicate _ _)
        hps hpe hlen hsz

theorem pio_read_inv {f : Pager} {ws : List (ℕ × List ℕ)} {pnum pstart pend : ℕ} {c : List ℕ}
    (hS : SInv f) (hM : MInv f ws)
    (hps : pstart < pend) (hpe : pend ≤ f.pgsize) (hlen : c.length = pend - pstart) :
    ∃ bout,
      (f.pio c pnum pstart pend false).1 = .ok bout ∧
      bout.length = c.length ∧
      (∀ j, j < c.length → ∀ v,
        lastWritten ws (pnum * f.pgsize + pstart + j) = some v → bout.getD j 0 = v) ∧
      SInv (f.pio c pnum pstart pend false).2 ∧
      MInv (f.pio c pnum pstart pend false).2 ws ∧
      (f.pio c pnum pstart pend false).2.pgsize = f.pgsize ∧
      (f.pio c pnum pstart pend false).2.pgmax = f.pgmax ∧
      (f.pio c pnum pstart pend false).2.size = f.size ∧
      (f.pio c pnum pstart pend false).2.shards.length = f.shards.length ∧
      (f.pio c pnum pstart pend false).2.file.statOk = true ∧
      (f.pio c pnum pstart pend false).2.file.failWrites = false := by
  unfold Pager.pio
  dsimp only
  cases hfind : (f.shardAt (f.keyOf pnum)).items.find? (fun p => p.num == pnum) with
  | some p =>
    simp only [hfind]
    obtain ⟨hMid, hIn⟩ := mid_of_hit pstart pend hS hM hfind
    exact pioApply_read_inv hS hMid hIn hps hpe hlen
  | none =>
    simp only [hfind]
    unfold Pager.pioMiss
    split
    · rename_i hcap
      cases hlast : (f.shardAt (f.keyOf pnum)).items.getLast? with
      | none =>
        exfalso
        have hne : (f.shardAt (f.keyOf pnum)).items ≠ [] := by
          intro h
          rw [h] at hcap
          simp at hcap
          have := hS.mxPos
          omega
        exact hne (List.getLast?_eq_none_iff.mp hlast)
      | some p0 =>
        simp only [hlast]
        have hd0 : p0.data.length = f.pgsize := hS.dataLen _ p0 (getLast?_mem hlast)
        have hdl : (if False ∧ pend - pstart < f.pgsize
            then p0.data.map (fun _ => 0) else p0.data).length = f.pgsize := by
          split
          · rw [List.length_map]; exact hd0
          · exact hd0
        split
        · rename_i hdirty
          obtain ⟨fl1, hwr, hP⟩ := preMid_of_evict_dirty hS hM hfind hlast hdirty
          rw [hwr]
          exact pioLoad_read_inv hS hP hdl hps hpe hlen
        · rename_i hdirty
          exact pioLoad_read_inv hS
            (preMid_of_evict_clean hS hM hfind hlast (Bool.eq_false_iff.mpr hdirty)) hdl
            hps hpe hlen
    · exact pioLoad_read_inv hS (preMid_of_miss hS hM hfind) (List.length_replicate _ _)
        hps hpe hlen

/-- The page-walking loop on a write: with the whole request below the
logical size, every chunk succeeds, the loop reports `len(b)` bytes with no
error, and the final state holds the log extended by the request. -/
theorem ioLoopF_write_inv (fuel : ℕ) :
    ∀ (f : Pager) (ws : List (ℕ × List ℕ)) (b : List ℕ) (off : ℕ),
    SInv f → MInv f ws → b.length ≤ fuel → ((off : ℤ) + b.length ≤ f.size) →
    (Pager.ioLoopF fuel f b off true).1.1 = b.length ∧
    (Pager.ioLoopF fuel f b off true).1.2.1 = none ∧
    (Pager.ioLoopF fuel f b off true).1.2.2 = b ∧
    SInv (Pager.ioLoopF fuel f b off true).2 ∧
    MInv (Pager.ioLoopF fuel f b off true).2 (ws ++ [(off, b)]) ∧
    (Pager.ioLoopF fuel f b off true).2.pgsize = f.pgsize ∧
    (Pager.ioLoopF fuel f b off true).2.pgmax = f.pgmax ∧
    (Pager.ioLoopF fuel f b off true).2.size = f.size ∧
    (Pager.ioLoopF fuel f b off true).2.shards.length = f.shards.length := by
  induction fuel with
  | zero =>
    intro f ws b off hS hM hfuel hsz
    have hb : b = [] := List.eq_nil_of_length_eq_zero (by omega)
    subst hb
    unfold Pager.ioLoopF
    rw [if_pos (show ([] : List ℕ).length = 0 from rfl)]
    refine ⟨rfl, rfl, rfl, hS, ?_, rfl, rfl, rfl, rfl⟩
    refine MInv_congr ?_ hM
    intro o
    rw [lastWritten_append_one]
    rw [if_neg (by simp only [List.length_nil]; omega)]
  | succ fuel ih =>
    intro f ws b off hS hM hfuel hsz
    by_cases hb : b.length = 0
    · have hb' : b = [] := List.eq_nil_of_length_eq_zero hb
      subst hb'
      unfold Pager.ioLoopF
      rw [if_pos (show ([] : List ℕ).length = 0 from rfl)]
      refine ⟨rfl, rfl, rfl, hS, ?_, rfl, rfl, rfl, rfl⟩
      refine MInv_congr ?_ hM
      intro o
      rw [lastWritten_append_one]
      rw [if_neg (by simp only [List.length_nil]; omega)]
    · unfold Pager.ioLoopF
      rw [if_neg hb]
      dsimp only
      have hw : 0 < f.pgsize := hS.pgPos
      obtain ⟨k, hk⟩ := hS.pow2
      have hmod : Nat.land off (f.pgsize - 1) = off % f.pgsize := land_pow2_mod off _ k hk
      rw [hmod]
      have hps : off % f.pgsize < f.pgsize := Nat.mod_lt off hw
      have hlenpos : 0 < b.length := Nat.pos_of_ne_zero hb
      have hpe_pos : off % f.pgsize < min f.pgsize (off % f.pgsize + b.length) :=
        lt_min hps (by omega)
      have hn0 : ¬ (min f.pgsize (off % f.pgsize + b.length) - off % f.pgsize = 0) := by omega
      rw [if_neg hn0]
      have hnle : min f.pgsize (off % f.pgsize + b.length) - off % f.pgsize ≤ b.length := by
        have := min_le_right f.pgsize (off % f.pgsize + b.length)
        omega
      have hchunk : (b.take (min f.pgsize (off % f.pgsize + b.length) - off % f.pgsize)).length
          = min f.pgsize (off % f.pgsize + b.length) - off % f.pgsize := by
        rw [List.length_take]
        omega
      have hrec := pageRecomp f.pgsize off
      have hszpio : (((off / f.pgsize) * f.pgsize + min f.pgsize (off % f.pgsize + b.length)
          : ℕ) : ℤ) ≤ f.size := by
        have h1 : (off / f.pgsize) * f.pgsize + min f.pgsize (off % f.pgsize + b.length)
            ≤ off + b.length := by omega
        omega
      obtain ⟨hok, hS1, hM1, hpg1, hmx1, hsz1, hsh1, -, -⟩ :=
        pio_write_inv hS hM hpe_pos (min_le_left _ _) hchunk hszpio
      rcases hp : f.pio (b.take (min f.pgsize (off % f.pgsize + b.length) - off % f.pgsize))
          (off / f.pgsize) (off % f.pgsize) (min f.pgsize (off % f.pgsize + b.length)) true
        with ⟨res, f1⟩
      rw [hp] at hok hS1 hM1 hpg1 hmx1 hsz1 hsh1
      cases res with
      | error er =>
        exfalso
        simp at hok
      | ok bout =>
        have hbout : bout = b.take (min f.pgsize (off % f.pgsize + b.length) - off % f.pgsize) :=
          by simpa using hok
        subst hbout
        simp only [hp]
        rw [hrec] at hM1
        obtain ⟨ih1, ih2, ih3, ih4, ih5, ih6, ih7, ih8, ih9⟩ :=
          ih f1 (ws ++ [(off,
              b.take (min f.pgsize (off % f.pgsize + b.length) - off % f.pgsize))])
            (b.drop (min f.pgsize (off % f.pgsize + b.length) - off % f.pgsize))
            (off + (min f.pgsize (off % f.pgsize + b.length) - off % f.pgsize))
            hS1 hM1 (by rw [List.length_drop]; omega)
            (by rw [hsz1, List.length_drop]; push_cast; omega)
        refine ⟨?_, ih2, ?_, ih4, ?_, ?_, ?_, ?_, ?_⟩
        · show _ + _ = b.length
          rw [ih1, List.length_drop]
          omega
        · show List.take _ b ++ _ = b
          rw [ih3]
          exact List.take_append_drop _ b
        · refine MInv_congr ?_ ih5
          intro o
          have hsp := lastWritten_split ws off
            (b.take (min f.pgsize (off % f.pgsize + b.length) - off % f.pgsize))
            (b.drop (min f.pgsize (off % f.pgsize + b.length) - off % f.pgsize)) o
          rw [hchunk, List.take_append_drop] at hsp
          exact hsp
        · rw [ih6, hpg1]
        · rw [ih7, hmx1]
        · rw [ih8, hsz1]
        · rw [ih9, hsh1]

/-- The page-walking loop on a read: every chunk succeeds, the loop reports
`len(b)` bytes with no error, and every logged byte inside the request comes
back in the returned buffer. -/
theorem ioLoopF_read_inv (fuel : ℕ) :
    ∀ (f : Pager) (ws : List (ℕ × List ℕ)) (b : List ℕ) (off : ℕ),
    SInv f → MInv f ws → b.length ≤ fuel →
    (Pager.ioLoopF fuel f b off false).1.1 = b.length ∧
    (Pager.ioLoopF fuel f b off false).1.2.1 = none ∧
    (Pager.ioLoopF fuel f b off false).1.2.2.length = b.length ∧
    (∀ j, j < b.length → ∀ v, lastWritten ws (off + j) = some v →
      (Pager.ioLoopF fuel f b off false).1.2.2.getD j 0 = v) ∧
    SInv (Pager.ioLoopF fuel f b off false).2 ∧
    MInv (Pager.ioLoopF fuel f b off false).2 ws ∧
    (Pager.ioLoopF fuel f b off false).2.pgsize = f.pgsize ∧
    (Pager.ioLoopF fuel f b off false).2.pgmax = f.pgmax ∧
    (Pager.ioLoopF fuel f b off false).2.size = f.size ∧
    (Pager.ioLoopF fuel f b off false).2.shards.length = f.shards.length := by
  induction fuel with
  | zero =>
    intro f ws b off hS hM hfuel
    have hb : b = [] := List.eq_nil_of_length_eq_zero (by omega)
    subst hb
    unfold Pager.ioLoopF
    rw [if_pos (show ([] : List ℕ).length = 0 from rfl)]
    exact ⟨rfl, rfl, rfl, fun j hj => absurd hj (by simp), hS, hM, rfl, rfl, rfl, rfl⟩
  | succ fuel ih =>
    intro f ws b off hS hM hfuel
    by_cases hb : b.length = 0
    · have hb' : b = [] := List.eq_nil_of_length_eq_zero hb
      subst hb'
      unfold Pager.ioLoopF
      rw [if_pos (show ([] : List ℕ).length = 0 from rfl)]
      exact ⟨rfl, rfl, rfl, fun j hj => absurd hj (by simp), hS, hM, rfl, rfl, rfl, rfl⟩
    · unfold Pager.ioLoopF
      rw [if_neg hb]
      dsimp only
      have hw : 0 < f.pgsize := hS.pgPos
      obtain ⟨k, hk⟩ := hS.pow2
      have hmod : Nat.land off (f.pgsize - 1) = off % f.pgsize := land_pow2_mod off _ k hk
      rw [hmod]
      have hps : off % f.pgsize < f.pgsize := Nat.mod_lt off hw
      have hlenpos : 0 < b.length := Nat.pos_of_ne_zero hb
      have hpe_pos : off % f.pgsize < min f.pgsize (off % f.pgsize + b.length) :=
        lt_min hps (by omega)
      have hn0 : ¬ (min f.pgsize (off % f.pgsize + b.length) - off % f.pgsize = 0) := by omega
      rw [if_neg hn0]
      have hnle : min f.pgsize (off % f.pgsize + b.length) - off % f.pgsize ≤ b.length := by
        have := min_le_right f.pgsize (off % f.pgsize + b.length)
        omega
      have hchunk : (b.take (min f.pgsize (off % f.pgsize + b.length) - off % f.pgsize)).length
          = min f.pgsize (off % f.pgsize + b.length) - off % f.pgsize := by
        rw [List.length_take]
        omega
      have hrec := pageRecomp f.pgsize off
      obtain ⟨bout, hok, hblen, hbytes, hS1, hM1, hpg1, hmx1, hszq, hsh1, -, -⟩ :=
        pio_read_inv hS hM hpe_pos (min_le_left _ _) hchunk
      rcases hp : f.pio (b.take (min f.pgsize (off % f.pgsize + b.length) - off % f.pgsize))
          (off / f.pgsize) (off % f.pgsize) (min f.pgsize (off % f.pgsize + b.length)) false
        with ⟨res, f1⟩
      rw [hp] at hok hS1 hM1 hpg1 hmx1 hszq hsh1
      cases res with
      | error er =>
        exfalso
        simp at hok
      | ok bout2 =>
        have hb2 : bout2 = bout := by simpa using hok
        subst hb2
        simp only [hp]
        obtain ⟨ih1, ih2, ih3, ih4, ih5, ih6, ih7, ih8, ih9, ih10⟩ :=
          ih f1 ws
            (b.drop (min f.pgsize (off % f.pgsize + b.length) - off % f.pgsize))
            (off + (min f.pgsize (off % f.pgsize + b.length) - off % f.pgsize))
            hS1 hM1 (by rw [List.length_drop]; omega)
        refine ⟨?_, ih2, ?_, ?_, ih5, ih6, ?_, ?_, ?_, ?_⟩
        · show _ + _ = b.length
          rw [ih1, List.length_drop]
          omega
        · show (bout2 ++ _).length = b.length
          rw [List.length_append, hblen, hchunk, ih3, List.length_drop]
          omega
        · intro j hj v hv
          by_cases hjn : j < min f.pgsize (off % f.pgsize + b.length) - off % f.pgsize
          · show (bout2 ++ _).getD j 0 = v
            rw [List.getD_eq_getElem?_getD, List.getElem?_append,
              if_pos (show j < bout2.length by rw [hblen, hchunk]; omega),
              ← List.getD_eq_getElem?_getD]
            refine hbytes j (by rw [hchunk]; omega) v ?_
            rw [hrec]
            exact hv
          · show (bout2 ++ _).getD j 0 = v
            rw [List.getD_eq_getElem?_getD, List.getElem?_append,
              if_neg (show ¬ j < bout2.length by rw [hblen, hchunk]; omega),
              hblen, hchunk, ← List.getD_eq_getElem?_getD]
            refine ih4 (j - (min f.pgsize (off % f.pgsize + b.length) - off % f.pgsize))
              (by rw [List.length_drop]; omega) v ?_
            rw [show off + (min f.pgsize (off % f.pgsize + b.length) - off % f.pgsize) +
              (j - (min f.pgsize (off % f.pgsize + b.length) - off % f.pgsize)) = off + j
              from by omega]
            exact hv
        · rw [ih7, hpg1]
        · rw [ih8, hmx1]
        · rw [ih9, hszq]
        · rw [ih10, hsh1]

theorem incrSize_size_mono (f : Pager) (e : ℤ) : f.size ≤ (f.incrSize e).size := by
  unfold Pager.incrSize
  dsimp only
  split
  · rename_i hneg
    split
    · split
      · rename_i hgt
        dsimp only at hgt ⊢
        omega
      · dsimp only
        omega
    · exact le_refl _
  · split
    · rename_i hgt
      dsimp only
      omega
    · exact le_refl _

theorem incrSize_fields (f : Pager) (e : ℤ) :
    (f.incrSize e).pgsize = f.pgsize ∧ (f.incrSize e).pgmax = f.pgmax ∧
    (f.incrSize e).shards = f.shards ∧ (f.incrSize e).file = f.file := by
  obtain ⟨sz, hsz⟩ := f.incrSize_only_size e
  rw [hsz]
  exact ⟨rfl, rfl, rfl, rfl⟩

theorem incrSize_size_ge (f : Pager) (e : ℤ) (hst : f.file.statOk = true) :
    e ≤ (f.incrSize e).size := by
  unfold Pager.incrSize
  dsimp only
  by_cases h1 : f.size = -1
  · rw [if_pos h1, hst, if_pos (show (true : Bool) = true from rfl)]
    by_cases h2 : e > ((f.file.flen : ℕ) : ℤ)
    · rw [if_pos h2]
    · rw [if_neg h2]
      dsimp only
      omega
  · rw [if_neg h1]
    by_cases h2 : e > f.size
    · rw [if_pos h2]
    · rw [if_neg h2]
      omega

theorem SInv_incrSize {f : Pager} (hS : SInv f) (e : ℤ) : SInv (f.incrSize e) := by
  obtain ⟨sz, hsz⟩ := f.incrSize_only_size e
  have hm := incrSize_size_mono f e
  rw [hsz] at hm ⊢
  exact ⟨hS.pow2, hS.nsPos, hS.mxPos, hS.dataLen, hS.placed, hS.ndKeys, hS.ndDirty,
    hS.dirtySub, fun i d hd => lt_of_lt_of_le (hS.dirtyLt i d hd) hm, hS.fwOK, hS.stOK⟩

theorem MInv_incrSize {f : Pager} {ws : List (ℕ × List ℕ)} (hM : MInv f ws) (e : ℤ) :
    MInv (f.incrSize e) ws := by
  obtain ⟨sz, hsz⟩ := f.incrSize_only_size e
  have hm := incrSize_size_mono f e
  rw [hsz] at hm ⊢
  intro o v hv
  obtain ⟨h1, h2, h3⟩ := hM o v hv
  exact ⟨lt_of_lt_of_le h1 hm, h2, h3⟩

/-- `WriteAt` at a non-negative offset over a healthy backing file: the
state invariants are preserved and the write log gains the request. -/
theorem WriteAt_inv {f : Pager} {ws : List (ℕ × List ℕ)} {b : List ℕ} {off : ℕ}
    (hS : SInv f) (hM : MInv f ws) :
    SInv (f.WriteAt b (off : ℤ)).2 ∧
    MInv (f.WriteAt b (off : ℤ)).2 (ws ++ [(off, b)]) ∧
    (f.WriteAt b (off : ℤ)).2.pgsize = f.pgsize ∧
    (f.WriteAt b (off : ℤ)).2.pgmax = f.pgmax ∧
    (f.WriteAt b (off : ℤ)).2.shards.length = f.shards.length := by
  unfold Pager.WriteAt Pager.ioAt
  dsimp only
  rw [if_neg (not_lt.mpr (Int.natCast_nonneg off))]
  split
  · rename_i hgt
    rw [if_pos (show (true : Bool) = true from rfl)]
    have hS1 := SInv_incrSize hS ((off : ℤ) + (b.length : ℤ))
    have hM1 := MInv_incrSize hM ((off : ℤ) + (b.length : ℤ))
    have hge := incrSize_size_ge f ((off : ℤ) + (b.length : ℤ)) hS.stOK
    obtain ⟨hf1pg, hf1mx, hf1sh, -⟩ := incrSize_fields f ((off : ℤ) + (b.length : ℤ))
    rw [Int.toNat_natCast]
    unfold Pager.ioLoop
    obtain ⟨-, -, -, l4, l5, l6, l7, -, l9⟩ :=
      ioLoopF_write_inv b.length (f.incrSize ((off : ℤ) + (b.length : ℤ))) ws b off
        hS1 hM1 (le_refl _) (by omega)
    exact ⟨l4, l5, l6.trans hf1pg, l7.trans hf1mx, by rw [l9, hf1sh]⟩
  · rename_i hle
    rw [Int.toNat_natCast]
    unfold Pager.ioLoop
    obtain ⟨-, -, -, l4, l5, l6, l7, -, l9⟩ :=
      ioLoopF_write_inv b.length f ws b off hS hM (le_refl _) (by omega)
    exact ⟨l4, l5, l6, l7, l9⟩

/-- `ReadAt` of an in-bounds, nonempty range: no error, full count, and
every logged byte of the range comes back. -/
theorem ReadAt_inv {f : Pager} {ws : List (ℕ × List ℕ)} {b : List ℕ} {off : ℕ}
    (hS : SInv f) (hM : MInv f ws)
    (hsz : (off : ℤ) + (b.length : ℤ) ≤ f.size) :
    (f.ReadAt b (off : ℤ)).1.err = none ∧
    (f.ReadAt b (off : ℤ)).1.n = b.length ∧
    (∀ j, j < b.length → ∀ v, lastWritten ws (off + j) = some v →
      (f.ReadAt b (off : ℤ)).1.buf.getD j 0 = v) := by
  unfold Pager.ReadAt Pager.ioAt
  dsimp only
  rw [if_neg (not_lt.mpr (Int.natCast_nonneg off))]
  split
  · rename_i hgt
    exact absurd hgt (by omega)
  · rename_i hle
    rw [Int.toNat_natCast]
    unfold Pager.ioLoop
    obtain ⟨l1, l2, -, l4, -, -, -, -, -, -⟩ :=
      ioLoopF_read_inv b.length f ws b off hS hM (le_refl _)
    exact ⟨l2, l1, l4⟩

/-- The state after one iteration of `Pager.flushDirty`: page `pnum` of
shard `idx` has been written back (`fl1` is the backing file afterwards) and
removed from the dirty set. -/
def flushShardStep (f : Pager) (fl1 : BFile) (idx pnum : ℕ) : Pager :=
  { f with
      file := fl1,
      shards := f.shards.set idx
        { f.shardAt idx with dirty := (f.shardAt idx).dirty.erase pnum } }

theorem flushShardStep_shardAt_self (f : Pager) (fl1 : BFile) (idx pnum : ℕ)
    (h : idx < f.shards.length) :
    (flushShardStep f fl1 idx pnum).shardAt idx =
      { f.shardAt idx with dirty := (f.shardAt idx).dirty.erase pnum } := by
  unfold flushShardStep Pager.shardAt
  simp [List.getD_eq_getElem?_getD, List.getElem?_set_self, h]

theorem flushShardStep_shardAt_other (f : Pager) (fl1 : BFile) (idx pnum : ℕ) (j : ℕ)
    (hj : j ≠ idx) :
    (flushShardStep f fl1 idx pnum).shardAt j = f.shardAt j := by
  unfold flushShardStep Pager.shardAt
  simp [List.getD_eq_getElem?_getD, List.getElem?_set_ne (Ne.symm hj)]

theorem flushShardStep_keyOf (f : Pager) (fl1 : BFile) (idx pnum q : ℕ) :
    (flushShardStep f fl1 idx pnum).keyOf q = f.keyOf q := by
  unfold flushShardStep Pager.keyOf
  dsimp only
  rw [List.length_set]

/-- One `flushDirty` iteration: the dirty cached page is written back
(successfully, over a healthy file, with its start below the logical size)
and marked clean; both invariants survive. -/
theorem flush_step_inv {f : Pager} {ws : List (ℕ × List ℕ)} {idx pnum : ℕ} {p : Page}
    (hS : SInv f) (hM : MInv f ws)
    (hidx : idx < f.shards.length)
    (hfind : (f.shardAt idx).items.find? (fun q => q.num == pnum) = some p)
    (hlt : ((pnum * f.pgsize : ℕ) : ℤ) < f.size) :
    ∃ fl1, f.write p = .ok { f with file := fl1 } ∧
      SInv (flushShardStep f fl1 idx pnum) ∧
      MInv (flushShardStep f fl1 idx pnum) ws := by
  obtain ⟨hpm, hpn⟩ := find?_num_some hfind
  have hk : f.keyOf pnum = idx := by rw [← hpn]; exact hS.placed idx p hpm
  have hd0 : p.data.length = f.pgsize := hS.dataLen idx p hpm
  have hw : 0 < f.pgsize := hS.pgPos
  have hlt' : ((p.num * f.pgsize : ℕ) : ℤ) < f.size := by rw [hpn]; exact hlt
  have hnn : 0 ≤ f.wEnd p := by
    unfold Pager.wEnd
    split
    · omega
    · omega
  obtain ⟨fl1, hwr, hok⟩ := Pager.write_ok_of hS.fwOK hnn
  obtain ⟨hflen1, hfin, hfout, hstat1, hfw1⟩ := BFile.writeAt_ok hok
  have hcov : ∀ o : ℕ, (o : ℤ) < f.size → o / f.pgsize = p.num →
      p.num * f.pgsize ≤ o ∧
      o - p.num * f.pgsize < (p.data.take (f.wEnd p).toNat).length := by
    intro o ho hq
    have hrec := pageRecomp f.pgsize o
    rw [hq] at hrec
    have hmlt : o % f.pgsize < f.pgsize := Nat.mod_lt o hw
    refine ⟨by omega, ?_⟩
    rw [List.length_take, hd0]
    refine lt_min ?_ (by omega)
    unfold Pager.wEnd
    split
    · omega
    · omega
  have hbsle : (p.data.take (f.wEnd p).toNat).length ≤ f.pgsize := by
    rw [List.length_take, hd0]
    exact min_le_right _ _
  have hout : ∀ o : ℕ, o / f.pgsize ≠ p.num → fl1.fdata o = f.file.fdata o := by
    intro o hne
    apply hfout
    by_cases hlo : o < p.num * f.pgsize
    · exact Or.inl hlo
    · right
      by_contra hcon
      push_neg at hcon
      apply hne
      have hsucc : (p.num + 1) * f.pgsize = p.num * f.pgsize + f.pgsize := by ring
      exact Nat.div_eq_of_lt_le (by omega) (by omega)
  refine ⟨fl1, hwr, ?_, ?_⟩
  · refine ⟨hS.pow2, ?_, hS.mxPos, ?_, ?_, ?_, ?_, ?_, ?_, ?_, ?_⟩
    · show 1 ≤ (f.shards.set idx _).length
      rw [List.length_set]
      exact hS.nsPos
    · intro i q hq
      by_cases hi : i = idx
      · subst hi
        rw [flushShardStep_shardAt_self f fl1 i pnum hidx] at hq
        exact hS.dataLen i q hq
      · rw [flushShardStep_shardAt_other f fl1 idx pnum i hi] at hq
        exact hS.dataLen i q hq
    · intro i q hq
      rw [flushShardStep_keyOf]
      by_cases hi : i = idx
      · subst hi
        rw [flushShardStep_shardAt_self f fl1 i pnum hidx] at hq
        exact hS.placed i q hq
      · rw [flushShardStep_shardAt_other f fl1 idx pnum i hi] at hq
        exact hS.placed i q hq
    · intro i
      by_cases hi : i = idx
      · subst hi
        rw [flushShardStep_shardAt_self f fl1 i pnum hidx]
        exact hS.ndKeys i
      · rw [flushShardStep_shardAt_other f fl1 idx pnum i hi]
        exact hS.ndKeys i
    · intro i
      by_cases hi : i = idx
      · subst hi
        rw [flushShardStep_shardAt_self f fl1 i pnum hidx]
        exact (hS.ndDirty i).erase _
      · rw [flushShardStep_shardAt_other f fl1 idx pnum i hi]
        exact hS.ndDirty i
    · intro i d hd
      by_cases hi : i = idx
      · subst hi
        rw [flushShardStep_shardAt_self f fl1 i pnum hidx] at hd ⊢
        exact hS.dirtySub i d (List.mem_of_mem_erase hd)
      · rw [flushShardStep_shardAt_other f fl1 idx pnum i hi] at hd ⊢
        exact hS.dirtySub i d hd
    · intro i d hd
      by_cases hi : i = idx
      · subst hi
        rw [flushShardStep_shardAt_self f fl1 i pnum hidx] at hd
        exact hS.dirtyLt i d (List.mem_of_mem_erase hd)
      · rw [flushShardStep_shardAt_other f fl1 idx pnum i hi] at hd
        exact hS.dirtyLt i d hd
    · show fl1.failWrites = false
      rw [hfw1]
      exact hS.fwOK
    · show fl1.statOk = true
      rw [hstat1]
      exact hS.stOK
  · intro o v hv
    by_cases hqp : o / f.pgsize = p.num
    · obtain ⟨h1, h2, h3⟩ := hM o v hv
      have hc0 : f.cachedAt (o / f.pgsize) = some p := by
        rw [hqp]
        show (f.shardAt (f.keyOf p.num)).items.find? (fun r => r.num == p.num) = some p
        rw [hpn, hk]
        exact hfind
      have hvv : p.data.getD (o % f.pgsize) 0 = v := (h2 p hc0).1
      obtain ⟨hoff, hbnd⟩ := hcov o h1 hqp
      have hrec := pageRecomp f.pgsize o
      rw [hqp] at hrec
      have hfile : o < fl1.flen ∧ fl1.fdata o = v := by
        constructor
        · rw [hflen1]
          omega
        · rw [hfin o (by omega) (by omega)]
          rw [show o - p.num * f.pgsize = o % f.pgsize by omega]
          have hidxlt : o % f.pgsize < (f.wEnd p).toNat := by
            have h2' := hbnd
            rw [List.length_take] at h2'
            omega
          rw [List.getD_eq_getElem?_getD, List.getElem?_take_of_lt hidxlt,
            ← List.getD_eq_getElem?_getD]
          exact hvv
      have hcfM : Pager.cachedAt (flushShardStep f fl1 idx pnum) (o / f.pgsize) = some p := by
        show (Pager.shardAt (flushShardStep f fl1 idx pnum)
            ((flushShardStep f fl1 idx pnum).keyOf (o / f.pgsize))).items.find?
            (fun r => r.num == o / f.pgsize) = some p
        rw [flushShardStep_keyOf, hqp, hpn, hk,
          flushShardStep_shardAt_self f fl1 idx pnum hidx]
        exact hfind
      refine ⟨h1, ?_, ?_⟩
      · intro pc hpc
        have hpc' : Pager.cachedAt (flushShardStep f fl1 idx pnum) (o / f.pgsize) = some pc :=
          hpc
        rw [hcfM] at hpc'
        injection hpc' with hh
        subst hh
        exact ⟨hvv, fun _ => hfile⟩
      · intro hnone
        have hnone' : Pager.cachedAt (flushShardStep f fl1 idx pnum) (o / f.pgsize) = none :=
          hnone
        rw [hcfM] at hnone'
        exact absurd hnone' (by simp)
    · refine MInvAt_file_step (hM o v hv) ?_ ?_ ?_ ?_ ?_ ?_
      · show f.file.flen ≤ fl1.flen
        rw [hflen1]
        exact le_max_left _ _
      · intro _
        show fl1.fdata o = f.file.fdata o
        exact hout o hqp
      · rfl
      · rfl
      · by_cases hkq : f.keyOf (o / f.pgsize) = idx
        · show (Pager.shardAt (flushShardStep f fl1 idx pnum)
              ((flushShardStep f fl1 idx pnum).keyOf (o / f.pgsize))).items.find?
              (fun r => r.num == o / f.pgsize) = f.cachedAt (o / f.pgsize)
          rw [flushShardStep_keyOf, hkq, flushShardStep_shardAt_self f fl1 idx pnum hidx]
          show (f.shardAt idx).items.find? (fun r => r.num == o / f.pgsize) =
            (f.shardAt (f.keyOf (o / f.pgsize))).items.find? (fun r => r.num == o / f.pgsize)
          rw [hkq]
        · show (Pager.shardAt (flushShardStep f fl1 idx pnum)
              ((flushShardStep f fl1 idx pnum).keyOf (o / f.pgsize))).items.find?
              (fun r => r.num == o / f.pgsize) = f.cachedAt (o / f.pgsize)
          rw [flushShardStep_keyOf, flushShardStep_shardAt_other f fl1 idx pnum _ hkq]
          rfl
      · have hnpn : o / f.pgsize ≠ pnum := by rw [← hpn]; exact hqp
        by_cases hkq : f.keyOf (o / f.pgsize) = idx
        · show (Pager.shardAt (flushShardStep f fl1 idx pnum)
              ((flushShardStep f fl1 idx pnum).keyOf (o / f.pgsize))).dirty.contains
              (o / f.pgsize) = f.isDirty (o / f.pgsize)
          rw [flushShardStep_keyOf, hkq, flushShardStep_shardAt_self f fl1 idx pnum hidx]
          show ((f.shardAt idx).dirty.erase pnum).contains (o / f.pgsize) =
            (f.shardAt (f.keyOf (o / f.pgsize))).dirty.contains (o / f.pgsize)
          rw [hkq, contains_erase_ne _ _ _ hnpn]
        · show (Pager.shardAt (flushShardStep f fl1 idx pnum)
              ((flushShardStep f fl1 idx pnum).keyOf (o / f.pgsize))).dirty.contains
              (o / f.pgsize) = f.isDirty (o / f.pgsize)
          rw [flushShardStep_keyOf, flushShardStep_shardAt_other f fl1 idx pnum _ hkq]
          rfl

/-- `flushDirty` over the full dirty work list of a shard: every writeback
succeeds, the shard's dirty set empties, other shards are untouched, and the
invariants survive. -/
theorem flushDirty_inv (work : List ℕ) :
    ∀ (f : Pager) (ws : List (ℕ × List ℕ)) (idx : ℕ),
    SInv f → MInv f ws → idx < f.shards.length →
    (f.shardAt idx).dirty = work →
    (f.flushDirty idx work).1 = none ∧
    SInv (f.flushDirty idx work).2 ∧
    MInv (f.flushDirty idx work).2 ws ∧
    ((f.flushDirty idx work).2.shardAt idx).dirty = [] ∧
    (∀ j, j ≠ idx → (f.flushDirty idx work).2.shardAt j = f.shardAt j) ∧
    (f.flushDirty idx work).2.pgsize = f.pgsize ∧
    (f.flushDirty idx work).2.pgmax = f.pgmax ∧
    (f.flushDirty idx work).2.size = f.size ∧
    (f.flushDirty idx work).2.shards.length = f.shards.length := by
  induction work with
  | nil =>
    intro f ws idx hS hM hidx hdirty
    exact ⟨rfl, hS, hM, hdirty, fun j hj => rfl, rfl, rfl, rfl, rfl⟩
  | cons pnum rest ih =>
    intro f ws idx hS hM hidx hdirty
    rw [Pager.flushDirty]
    dsimp only
    have hpmem : pnum ∈ (f.shardAt idx).dirty := by
      rw [hdirty]
      exact List.mem_cons_self _ _
    obtain ⟨q, hqm, hqn⟩ := hS.dirtySub idx pnum hpmem
    have hfind : (f.shardAt idx).items.find? (fun r => r.num == pnum) = some q := by
      rw [← hqn]
      exact find?_of_mem_ndKeys (hS.ndKeys idx) hqm
    simp only [hfind]
    have hltq : ((pnum * f.pgsize : ℕ) : ℤ) < f.size := hS.dirtyLt idx pnum hpmem
    obtain ⟨fl1, hwr, hSf, hMf⟩ := flush_step_inv hS hM hidx hfind hltq
    rw [hwr]
    have hidx2 : idx < (flushShardStep f fl1 idx pnum).shards.length := by
      show idx < (f.shards.set idx _).length
      rw [List.length_set]
      exact hidx
    have hdirty2 : ((flushShardStep f fl1 idx pnum).shardAt idx).dirty = rest := by
      rw [flushShardStep_shardAt_self f fl1 idx pnum hidx]
      show (f.shardAt idx).dirty.erase pnum = rest
      rw [hdirty]
      exact List.erase_cons_head _ _
    obtain ⟨i1, i2, i3, i4, i5, i6, i7, i8, i9⟩ :=
      ih (flushShardStep f fl1 idx pnum) ws idx hSf hMf hidx2 hdirty2
    refine ⟨i1, i2, i3, i4, ?_, i6, i7, i8, ?_⟩
    · intro j hj
      exact (i5 j hj).trans (flushShardStep_shardAt_other f fl1 idx pnum j hj)
    · refine i9.trans ?_
      show (f.shards.set idx _).length = f.shards.length
      rw [List.length_set]

/-- The shard walk of `Flush`: with all shards below `idx` already clean,
the remaining shards flush without error and every dirty set empties. -/
theorem flushFromF_inv (fuel : ℕ) :
    ∀ (f : Pager) (ws : List (ℕ × List ℕ)) (idx : ℕ),
    SInv f → MInv f ws →
    f.shards.length ≤ idx + fuel →
    (∀ j, j < idx → (f.shardAt j).dirty = []) →
    (Pager.flushFromF fuel f idx).1 = none ∧
    SInv (Pager.flushFromF fuel f idx).2 ∧
    MInv (Pager.flushFromF fuel f idx).2 ws ∧
    (∀ j, ((Pager.flushFromF fuel f idx).2.shardAt j).dirty = []) ∧
    (Pager.flushFromF fuel f idx).2.pgsize = f.pgsize ∧
    (Pager.flushFromF fuel f idx).2.size = f.size := by
  induction fuel with
  | zero =>
    intro f ws idx hS hM hle hpre
    refine ⟨rfl, hS, hM, ?_, rfl, rfl⟩
    intro j
    by_cases hj : j < idx
    · exact hpre j hj
    · show (f.shards.getD j emptyShard).dirty = []
      rw [List.getD_eq_default _ _ (by omega)]
      rfl
  | succ fuel ih =>
    intro f ws idx hS hM hle hpre
    unfold Pager.flushFromF
    dsimp only
    by_cases hlt : idx < f.shards.length
    · rw [if_pos hlt]
      obtain ⟨j1, j2, j3, j4, j5, j6, j7, j8, j9⟩ :=
        flushDirty_inv (f.shardAt idx).dirty f ws idx hS hM hlt rfl
      rcases hr : f.flushDirty idx (f.shardAt idx).dirty with ⟨er, f1⟩
      rw [hr] at j1 j2 j3 j4 j5 j6 j7 j8 j9
      have her : er = none := j1
      subst her
      simp only [hr]
      obtain ⟨k1, k2, k3, k4, k5, k6⟩ := ih f1 ws (idx + 1) j2 j3
        (by rw [j9]; omega)
        (by
          intro j hj
          by_cases hji : j = idx
          · subst hji
            exact j4
          · rw [j5 j hji]
            exact hpre j (by omega))
      exact ⟨k1, k2, k3, k4, k5.trans j6, k6.trans j8⟩
    · rw [if_neg hlt]
      refine ⟨rfl, hS, hM, ?_, rfl, rfl⟩
      intro j
      by_cases hj : j < idx
      · exact hpre j hj
      · show (f.shards.getD j emptyShard).dirty = []
        rw [List.getD_eq_default _ _ (by omega)]
        rfl

/-- `Flush` over a healthy pager: no error, invariants survive, and every
shard ends clean. -/
theorem Flush_inv {f : Pager} {ws : List (ℕ × List ℕ)} (hS : SInv f) (hM : MInv f ws) :
    (f.Flush).1 = none ∧
    SInv (f.Flush).2 ∧
    MInv (f.Flush).2 ws ∧
    (∀ j, ((f.Flush).2.shardAt j).dirty = []) ∧
    (f.Flush).2.pgsize = f.pgsize ∧
    (f.Flush).2.size = f.size :=
  flushFromF_inv f.shards.length f ws 0 hS hM (by omega) (fun j hj => absurd hj (by omega))

/-- With every shard clean, the backing file itself holds every logged
byte. -/
theorem MInv_flushed_file {f : Pager} {ws : List (ℕ × List ℕ)} (hM : MInv f ws)
    (hclean : ∀ j, (f.shardAt j).dirty = []) :
    ∀ o v, lastWritten ws o = some v → o < f.file.flen ∧ f.file.fdata o = v := by
  intro o v hv
  obtain ⟨h1, h2, h3⟩ := hM o v hv
  cases hc : f.cachedAt (o / f.pgsize) with
  | none => exact h3 hc
  | some p =>
    refine (h2 p hc).2 ?_
    show (f.shardAt (f.keyOf (o / f.pgsize))).dirty.contains (o / f.pgsize) = false
    rw [hclean (f.keyOf (o / f.pgsize))]
    rfl

theorem loopPow2F_ge (fuel : ℕ) : ∀ x n, 1 ≤ x → 1 ≤ loopPow2F fuel x n := by
  induction fuel with
  | zero =>
    intro x n hx
    exact hx
  | succ fuel ih =>
    intro x n hx
    unfold loopPow2F
    split
    · exact ih _ _ (by omega)
    · exact hx

theorem loopPow2F_le (fuel : ℕ) : ∀ x n, loopPow2F fuel x n ≤ max x (2 * n) := by
  induction fuel with
  | zero =>
    intro x n
    exact le_max_left _ _
  | succ fuel ih =>
    intro x n
    unfold loopPow2F
    split
    · rename_i hlt
      refine le_trans (ih (2 * x) n) ?_
      rw [max_eq_right (by omega : 2 * x ≤ 2 * n)]
      exact le_max_right _ _
    · exact le_max_left _ _

/-- The shard count computed by `NewPagerSize` never exceeds the page
quota, so the per-shard quota `pgmax1 / ns` is at least one. -/
theorem ns_le_pgmax (m : ℕ) :
    loopPow2F (if ((if m < 4 then 4 else m) + 31) / 32 > 128 then 128
        else ((if m < 4 then 4 else m) + 31) / 32) 1
      (if ((if m < 4 then 4 else m) + 31) / 32 > 128 then 128
        else ((if m < 4 then 4 else m) + 31) / 32) ≤ (if m < 4 then 4 else m) := by
  have h4 : 4 ≤ (if m < 4 then 4 else m) := by
    split
    · omega
    · omega
  revert h4
  generalize (if m < 4 then 4 else m) = pg1
  intro h4
  have hle := loopPow2F_le (if (pg1 + 31) / 32 > 128 then 128 else (pg1 + 31) / 32) 1
    (if (pg1 + 31) / 32 > 128 then 128 else (pg1 + 31) / 32)
  have hns1 : (if (pg1 + 31) / 32 > 128 then 128 else (pg1 + 31) / 32) ≤ (pg1 + 31) / 32 := by
    split
    · omega
    · omega
  have hns1b : 1 ≤ (if (pg1 + 31) / 32 > 128 then 128 else (pg1 + 31) / 32) := by
    split
    · omega
    · omega
  omega

theorem SInv_mk_replicate (file : BFile) (ps pm ns : ℕ)
    (hst : file.statOk = true) (hfw : file.failWrites = false)
    (hpow : ∃ k, ps = 2 ^ k) (hns : 1 ≤ ns) (hpm : 1 ≤ pm) :
    SInv { pgsize := ps, pgmax := pm, shards := List.replicate ns emptyShard,
           size := -1, file := file } := by
  have hsh : ∀ i, Pager.shardAt
      { pgsize := ps, pgmax := pm, shards := List.replicate ns emptyShard,
        size := -1, file := file } i = emptyShard := by
    intro i
    show (List.replicate ns emptyShard).getD i emptyShard = emptyShard
    rw [List.getD_eq_getElem?_getD, List.getElem?_getD_replicate_default_eq]
  refine ⟨hpow, ?_, hpm, ?_, ?_, ?_, ?_, ?_, ?_, hfw, hst⟩
  · show 1 ≤ (List.replicate ns emptyShard).length
    rw [List.length_replicate]
    exact hns
  · intro i p hp
    rw [hsh i] at hp
    exact absurd hp (by simp [emptyShard])
  · intro i p hp
    rw [hsh i] at hp
    exact absurd hp (by simp [emptyShard])
  · intro i
    rw [hsh i]
    simp [emptyShard]
  · intro i
    rw [hsh i]
    simp [emptyShard]
  · intro i d hd
    rw [hsh i] at hd
    exact absurd hd (by simp [emptyShard])
  · intro i d hd
    rw [hsh i] at hd
    exact absurd hd (by simp [emptyShard])

theorem MInv_nil (f : Pager) : MInv f [] := by
  intro o v hv
  simp [lastWritten] at hv

/-- Every pager `NewPagerSize` builds has at least one shard, a positive
per-shard quota, an all-empty replicated shard array, unknown size, and the
given backing file. -/
theorem newPagerSize_shape (file : BFile) (pageSize bufferSize : ℤ) :
    ∃ ns, 1 ≤ ns ∧
      (NewPagerSize file pageSize bufferSize).shards = List.replicate ns emptyShard ∧
      1 ≤ (NewPagerSize file pageSize bufferSize).pgmax ∧
      (NewPagerSize file pageSize bufferSize).size = -1 ∧
      (NewPagerSize file pageSize bufferSize).file = file := by
  unfold NewPagerSize loopPow2
  dsimp only
  refine ⟨_, ?_, rfl, ?_, rfl, rfl⟩
  · exact loopPow2F_ge _ _ _ (le_refl 1)
  · rw [Nat.one_le_div_iff (loopPow2F_ge _ _ _ (le_refl 1))]
    exact ns_le_pgmax _

/-- The structural invariant holds for every freshly constructed pager over
a healthy file whose page size came out a power of two (the spec's intended
constructor guarantee). -/
theorem SInv_newPagerSize (file : BFile) (pageSize bufferSize : ℤ)
    (hst : file.statOk = true) (hfw : file.failWrites = false)
    (hpow : ∃ k, (NewPagerSize file pageSize bufferSize).pgsize = 2 ^ k) :
    SInv (NewPagerSize file pageSize bufferSize) := by
  obtain ⟨ns, hns, hsh, hpm, hsz, hfl⟩ := newPagerSize_shape file pageSize bufferSize
  have h := SInv_mk_replicate file (NewPagerSize file pageSize bufferSize).pgsize
    (NewPagerSize file pageSize bufferSize).pgmax ns hst hfw hpow hns hpm
  rw [← hsh, ← hfl] at h
  rw [show (-1 : ℤ) = (NewPagerSize file pageSize bufferSize).size from hsz.symm] at h
  exact h

/-- Running a write list through `WriteAt` preserves the invariants and
extends the write log accordingly. -/
theorem applyWrites_inv (ws : List (ℕ × List ℕ)) :
    ∀ (f : Pager) (acc : List (ℕ × List ℕ)),
    SInv f → MInv f acc →
    SInv (applyWrites f ws) ∧ MInv (applyWrites f ws) (acc ++ ws) := by
  induction ws with
  | nil =>
    intro f acc hS hM
    rw [List.append_nil]
    exact ⟨hS, hM⟩
  | cons w rest ih =>
    intro f acc hS hM
    obtain ⟨hS1, hM1, -, -, -⟩ := @WriteAt_inv f acc w.2 w.1 hS hM
    obtain ⟨hSr, hMr⟩ := ih (f.WriteAt w.2 (w.1 : ℤ)).2 (acc ++ [w]) hS1 hM1
    refine ⟨hSr, ?_⟩
    have he : (acc ++ [w]) ++ rest = acc ++ w :: rest := by simp
    rw [← he]
    exact hMr

/-- **C1.** For every sequence of `WriteAt` calls with pairwise
non-overlapping byte ranges and non-negative offsets (offsets are naturals,
hence non-negative by construction), run on a freshly constructed pager over
a healthy backing file whose page size came out a power of two, the
subsequent `Flush` succeeds; afterwards a direct read of the backing file
yields the last-written byte of every written position, and `ReadAt` of any
nonempty subrange of the written region returns no error, the full count,
and exactly the last-written bytes for that subrange. -/
theorem c1_write_flush_read (f0 : BFile) (pageSize bufferSize : ℤ)
    (ws : List (ℕ × List ℕ))
    (hst : f0.statOk = true) (hfw : f0.failWrites = false)
    (hpow : ∃ k, (NewPagerSize f0 pageSize bufferSize).pgsize = 2 ^ k)
    (hdis : ws.Pairwise DisjointW) :
    ((applyWrites (NewPagerSize f0 pageSize bufferSize) ws).Flush).1 = none ∧
    (∀ o v, lastWritten ws o = some v →
      o < ((applyWrites (NewPagerSize f0 pageSize bufferSize) ws).Flush).2.file.flen ∧
      ((applyWrites (NewPagerSize f0 pageSize bufferSize) ws).Flush).2.file.fdata o = v) ∧
    (∀ (off : ℕ) (b : List ℕ), 0 < b.length →
      (∀ j, j < b.length → ∃ v, lastWritten ws (off + j) = some v) →
      ((((applyWrites (NewPagerSize f0 pageSize bufferSize) ws).Flush).2.ReadAt b
          (off : ℤ)).1.err = none ∧
        (((applyWrites (NewPagerSize f0 pageSize bufferSize) ws).Flush).2.ReadAt b
          (off : ℤ)).1.n = b.length ∧
        ∀ j, j < b.length → ∀ v, lastWritten ws (off + j) = some v →
          ((((applyWrites (NewPagerSize f0 pageSize bufferSize) ws).Flush).2.ReadAt b
            (off : ℤ)).1.buf.getD j 0 = v))) := by
  have hS0 := SInv_newPagerSize f0 pageSize bufferSize hst hfw hpow
  have hM0 := MInv_nil (NewPagerSize f0 pageSize bufferSize)
  obtain ⟨hSW, hMW⟩ := applyWrites_inv ws (NewPagerSize f0 pageSize bufferSize) [] hS0 hM0
  rw [List.nil_append] at hMW
  obtain ⟨hfl, hSF, hMF, hclean, -, -⟩ := Flush_inv hSW hMW
  refine ⟨hfl, MInv_flushed_file hMF hclean, ?_⟩
  intro off b hb hcov
  have hsz : (off : ℤ) + (b.length : ℤ) ≤
      ((applyWrites (NewPagerSize f0 pageSize bufferSize) ws).Flush).2.size := by
    obtain ⟨v, hv⟩ := hcov (b.length - 1) (by omega)
    have h1 := (hMF _ _ hv).1
    omega
  exact ReadAt_inv hSF hMF hsz

/-- Concrete run of C1: two disjoint one-byte writes on a small pager; the
flush reports no error. -/
theorem c1_write_flush_read_witness :
    List.Pairwise DisjointW [((0 : ℕ), ([7] : List ℕ)), (2, [9])] ∧
    ((applyWrites (NewPagerSize fileTen 4 4) [(0, [7]), (2, [9])]).Flush).1 = none :=
  ⟨by decide,
    (c1_write_flush_read fileTen 4 4 [(0, [7]), (2, [9])] rfl rfl ⟨2, by decide⟩
      (by decide)).1⟩
